import Mathlib

/-!
Verification development for the small-object allocator (`small/small.c`)
and its size-class scheme.

The allocator's mutable behaviour (`small_mempool_activate`, `smalloc`,
`smfree`, `smfree_delayed`, `small_alloc_setopt`, `small_collect_garbage`)
is shallowly embedded as pure functions over an explicit state: the data
fixed at `small_alloc_create` time lives in `alloc_config`, the state that
evolves between create and destroy lives in `alloc_state` (the spec's
"Lifecycle" section states exactly this split: between creation and
destruction only routing, waste counters and free-mode state evolve).
Machine integers are modelled as `Nat`; masks are values below `2 ^ 32`
and `__builtin_ffs` is modelled bit-by-bit over 32 bits.
-/

set_option maxHeartbeats 1000000

namespace SmallAlloc

/-!  Size-class scheme.  -/

/-- Modelled from the spec: the `small_class` implementation
(`small_class.c` / `small_class.h`) is not part of the sources, only its
unit test (`test/small_class.c`) is.  The structure keeps the parameters
`granularity`, `min_alloc` and the derived `eff_size` (count of initial
classes whose size grows by exactly one granularity step). -/
structure small_class where
  granularity : Nat
  min_alloc : Nat
  eff_size : Nat
  deriving DecidableEq, Repr

/-- Modelled from the spec: the increment between consecutive class sizes.
Inside the linear region it is one granularity step; afterwards the step
doubles every `eff_size` classes, which is exactly the table the unit test
`check_expectation` builds (`growth *= 2` every `eff_size` classes). -/
def class_step (sc : small_class) (i : Nat) : Nat :=
  if i < sc.eff_size then sc.granularity
  else sc.granularity * 2 ^ ((i - sc.eff_size) / sc.eff_size)

/-- Modelled from the spec: `size_by_class(0) = min_alloc` and each further
class adds `class_step`. -/
def size_by_class (sc : small_class) : Nat → Nat
  | 0 => sc.min_alloc
  | i + 1 => size_by_class sc i + class_step sc (i + 1)

/-- Bounded linear search for the least class whose size covers `s`,
starting at class `i` with the given fuel. -/
def class_by_size_aux (sc : small_class) (s : Nat) : Nat → Nat → Nat
  | i, 0 => i
  | i, fuel + 1 =>
    if s ≤ size_by_class sc i then i else class_by_size_aux sc s (i + 1) fuel

/-- Modelled from the spec: `class_by_size(s)` returns the smallest `i`
such that `size_by_class(i) ≥ s`. -/
def class_by_size (sc : small_class) (s : Nat) : Nat :=
  class_by_size_aux sc s 0 s

theorem class_step_pos (sc : small_class) (hg : 1 ≤ sc.granularity) (i : Nat) :
    0 < class_step sc i := by
  unfold class_step
  split
  · omega
  · have : 0 < 2 ^ ((i - sc.eff_size) / sc.eff_size) := Nat.pos_pow_of_pos _ (by omega)
    exact Nat.mul_pos (by omega) this

theorem size_by_class_lt_succ (sc : small_class) (hg : 1 ≤ sc.granularity) (i : Nat) :
    size_by_class sc i < size_by_class sc (i + 1) := by
  have := class_step_pos sc hg (i + 1)
  simp only [size_by_class]
  omega

theorem size_by_class_strictMono (sc : small_class) (hg : 1 ≤ sc.granularity) :
    StrictMono (size_by_class sc) :=
  strictMono_nat_of_lt_succ (size_by_class_lt_succ sc hg)

theorem size_by_class_ge (sc : small_class) (hg : 1 ≤ sc.granularity) (i : Nat) :
    sc.min_alloc + i ≤ size_by_class sc i := by
  induction i with
  | zero => simp [size_by_class]
  | succ n ih =>
    have := class_step_pos sc hg (n + 1)
    simp only [size_by_class]
    omega

theorem class_by_size_aux_ge (sc : small_class) (s : Nat) :
    ∀ fuel i, i ≤ class_by_size_aux sc s i fuel := by
  intro fuel
  induction fuel with
  | zero => intro i; simp [class_by_size_aux]
  | succ n ih =>
    intro i
    simp only [class_by_size_aux]
    split
    · exact Nat.le_refl i
    · exact Nat.le_trans (Nat.le_succ i) (ih (i + 1))

theorem class_by_size_aux_spec (sc : small_class) (s : Nat) :
    ∀ fuel i, (∃ j, i ≤ j ∧ j < i + fuel ∧ s ≤ size_by_class sc j) →
      s ≤ size_by_class sc (class_by_size_aux sc s i fuel) ∧
      ∀ k, i ≤ k → k < class_by_size_aux sc s i fuel → size_by_class sc k < s := by
  intro fuel
  induction fuel with
  | zero =>
    intro i h
    obtain ⟨j, hj1, hj2, _⟩ := h
    omega
  | succ n ih =>
    intro i h
    simp only [class_by_size_aux]
    split
    · refine ⟨by assumption, ?_⟩
      intro k hk1 hk2
      omega
    · rename_i hne
      have hex : ∃ j, i + 1 ≤ j ∧ j < (i + 1) + n ∧ s ≤ size_by_class sc j := by
        obtain ⟨j, hj1, hj2, hj3⟩ := h
        refine ⟨j, ?_, by omega, hj3⟩
        rcases Nat.eq_or_lt_of_le hj1 with h' | h'
        · exact absurd (h' ▸ hj3) hne
        · omega
      obtain ⟨h1, h2⟩ := ih (i + 1) hex
      refine ⟨h1, ?_⟩
      intro k hk1 hk2
      rcases Nat.eq_or_lt_of_le hk1 with h' | h'
      · subst h'
        omega
      · exact h2 k h' hk2

theorem class_by_size_spec (sc : small_class) (hg : 1 ≤ sc.granularity)
    (hm : 1 ≤ sc.min_alloc) (s : Nat) :
    s ≤ size_by_class sc (class_by_size sc s) ∧
    ∀ k, k < class_by_size sc s → size_by_class sc k < s := by
  unfold class_by_size
  rcases Nat.eq_zero_or_pos s with hs | hs
  · subst hs
    simp [class_by_size_aux]
  · have hex : ∃ j, 0 ≤ j ∧ j < 0 + s ∧ s ≤ size_by_class sc j := by
      refine ⟨s - 1, Nat.zero_le _, by omega, ?_⟩
      have := size_by_class_ge sc hg (s - 1)
      omega
    obtain ⟨h1, h2⟩ := class_by_size_aux_spec sc s s 0 hex
    exact ⟨h1, fun k hk => h2 k (Nat.zero_le k) hk⟩

theorem class_by_size_size_by_class (sc : small_class) (hg : 1 ≤ sc.granularity)
    (hm : 1 ≤ sc.min_alloc) (i : Nat) :
    class_by_size sc (size_by_class sc i) = i := by
  obtain ⟨h1, h2⟩ := class_by_size_spec sc hg hm (size_by_class sc i)
  by_contra hne
  rcases Nat.lt_or_ge (class_by_size sc (size_by_class sc i)) i with h | h
  · have := size_by_class_strictMono sc hg h
    omega
  · have hlt : i < class_by_size sc (size_by_class sc i) := by omega
    have := h2 i hlt
    omega

/-!  Bit primitives: `__builtin_ffs` over 32 bits and the appropriate-pool
mask built by `small_mempool_set_mask`.  -/

/-- Bounded search for the lowest set bit, mirroring `__builtin_ffs` on a
32-bit value: the scan starts at bit `b` with the given fuel and returns
`1 +` the bit index, or `0` when no bit is found. -/
def ffs_from (n : Nat) : Nat → Nat → Nat
  | _, 0 => 0
  | b, fuel + 1 => if n.testBit b then b + 1 else ffs_from n (b + 1) fuel

/-- Model of `__builtin_ffs` applied to a 32-bit mask: one plus the index
of the least significant set bit among bits `0..31`, or `0` if none. -/
def ffs (n : Nat) : Nat := ffs_from n 0 32

theorem ffs_from_spec (n : Nat) :
    ∀ fuel b, (∃ j, b ≤ j ∧ j < b + fuel ∧ n.testBit j) →
      1 ≤ ffs_from n b fuel ∧ b ≤ ffs_from n b fuel - 1 ∧
      ffs_from n b fuel - 1 < b + fuel ∧
      n.testBit (ffs_from n b fuel - 1) ∧
      ∀ k, b ≤ k → k < ffs_from n b fuel - 1 → ¬ n.testBit k := by
  intro fuel
  induction fuel with
  | zero =>
    intro b h
    obtain ⟨j, hj1, hj2, _⟩ := h
    omega
  | succ m ih =>
    intro b h
    simp only [ffs_from]
    split
    · rename_i hb
      refine ⟨by omega, by omega, by omega, by simpa using hb, ?_⟩
      intro k hk1 hk2
      omega
    · rename_i hb
      have hex : ∃ j, b + 1 ≤ j ∧ j < (b + 1) + m ∧ n.testBit j := by
        obtain ⟨j, hj1, hj2, hj3⟩ := h
        refine ⟨j, ?_, by omega, hj3⟩
        rcases Nat.eq_or_lt_of_le hj1 with h' | h'
        · subst h'
          simp [hj3] at hb
        · omega
      obtain ⟨h1, h2, h3, h4, h5⟩ := ih (b + 1) hex
      refine ⟨h1, by omega, by omega, h4, ?_⟩
      intro k hk1 hk2
      rcases Nat.eq_or_lt_of_le hk1 with h' | h'
      · subst h'
        simpa using hb
      · exact h5 k h' hk2

theorem ffs_spec (n : Nat) (h : ∃ j, j < 32 ∧ n.testBit j) :
    1 ≤ ffs n ∧ ffs n - 1 < 32 ∧ n.testBit (ffs n - 1) ∧
    ∀ k, k < ffs n - 1 → ¬ n.testBit k := by
  have hex : ∃ j, 0 ≤ j ∧ j < 0 + 32 ∧ n.testBit j := by
    obtain ⟨j, hj1, hj2⟩ := h
    exact ⟨j, Nat.zero_le _, by omega, hj2⟩
  obtain ⟨h1, _, h3, h4, h5⟩ := ffs_from_spec n 32 0 hex
  simp only [ffs]
  exact ⟨h1, by omega, h4, fun k hk => h5 k (Nat.zero_le _) hk⟩

/-- Least set bit is unique: if `j` is a set bit below 32 and no smaller
bit is set, then `ffs` finds exactly `j`. -/
theorem ffs_eq_of_least (n j : Nat) (hj : j < 32) (hset : n.testBit j)
    (hmin : ∀ k, k < j → ¬ n.testBit k) : ffs n - 1 = j := by
  obtain ⟨h1, h2, h3, h4⟩ := ffs_spec n ⟨j, hj, hset⟩
  rcases Nat.lt_trichotomy (ffs n - 1) j with h | h | h
  · exact absurd h3 (hmin _ h)
  · exact h
  · exact absurd hset (h4 j h)

/-- The mask `small_mempool_set_mask` builds for the pool at group-local
index `idx`: bits `idx .. 31` set, i.e. `2 ^ 32 - 2 ^ idx`. -/
def appropriate_mask (idx : Nat) : Nat := 2 ^ 32 - 2 ^ idx

theorem appropriate_mask_testBit (idx b : Nat) (hidx : idx ≤ 32) :
    (appropriate_mask idx).testBit b = (decide (idx ≤ b) && decide (b < 32)) := by
  have hmask : appropriate_mask idx = (2 ^ (32 - idx) - 1) <<< idx := by
    rw [Nat.shiftLeft_eq, appropriate_mask, Nat.sub_mul, Nat.one_mul,
        ← Nat.pow_add]
    congr 2
    omega
  rw [hmask, Nat.testBit_shiftLeft, Nat.testBit_two_pow_sub_one]
  by_cases h : idx ≤ b
  · simp only [h]
    congr 1
    rw [decide_eq_decide]
    omega
  · simp [h]

/-!  Data model of the small allocator (`small.c`).  -/

/-- Free modes of the allocator (`enum small_free_mode`). -/
inductive FreeMode where
  | SMALL_FREE
  | SMALL_DELAYED_FREE
  | SMALL_COLLECT_GARBAGE
  deriving DecidableEq, Repr

export FreeMode (SMALL_FREE SMALL_DELAYED_FREE SMALL_COLLECT_GARBAGE)

/-- A small object as the model tracks it: the byte size originally
requested from `smalloc` (freeing must present the same size) and the
index of the mempool that actually owns the slab the object lives in —
the pool `slab_from_ptr` followed by `slab->mempool` recovers. -/
structure Obj where
  size : Nat
  actual : Nat
  deriving DecidableEq, Repr

/-- Data fixed by `small_alloc_create`: the pool table (`objsize`,
group membership, `appropriate_pool_mask`), the group table (`first`,
`last`, `waste_max`), `objsize_max` and the size-class parameters.  Pools
and groups are addressed by index; per the spec's lifecycle section this
data never changes between create and destroy. -/
structure alloc_config where
  pool_count : Nat
  group_count : Nat
  objsize : Nat → Nat
  group_of : Nat → Nat
  first : Nat → Nat
  last : Nat → Nat
  waste_max : Nat → Nat
  appropriate_pool_mask : Nat → Nat
  objsize_max : Nat
  sc : small_class

/-- Mutable state of the allocator: per-group `active_pool_mask`,
per-pool `used_pool` and `waste`, the per-pool `delayed` LIFO of
delayed-freed objects, the allocator-level `delayed` LIFO of pool indices
(named `pool_delayed` here), `delayed_large`, `free_mode`, plus the ghost
list `live` of small objects allocated and not yet freed or delayed
(head of each list is the LIFO top). -/
structure alloc_state where
  active_pool_mask : Nat → Nat
  used_pool : Nat → Nat
  waste : Nat → Nat
  delayed : Nat → List Obj
  pool_delayed : List Nat
  delayed_large : List Obj
  free_mode : FreeMode
  live : List Obj

/-!  Operations, translated from `small/small.c`.  -/

/-- Embeds `small_mempool_activate` (small.c:56-84): set the pool's bit in
the group's `active_pool_mask`, then for every pool of the group with
index `≤ p` recompute `used_pool` as
`first + ffs(active_pool_mask & appropriate_pool_mask) - 1`. -/
def small_mempool_activate (cfg : alloc_config) (st : alloc_state) (p : Nat) :
    alloc_state :=
  let gi := cfg.group_of p
  let idx := p - cfg.first gi
  let mask := st.active_pool_mask gi ||| (1 <<< idx)
  { st with
    active_pool_mask := Function.update st.active_pool_mask gi mask,
    used_pool := fun i =>
      if cfg.first gi ≤ i ∧ i ≤ p then
        cfg.first gi + (ffs (mask &&& cfg.appropriate_pool_mask i) - 1)
      else st.used_pool i }

/-- Embeds `small_mempool_create_group` (small.c:126-146) restricted to its
mutable effect: zero the group's `active_pool_mask`, then activate the last
pool of the group.  (Assigning `group`, `first`, `last`, `waste_max` and the
appropriate-pool masks is creation of the fixed data held in
`alloc_config`.) -/
def small_mempool_create_group (cfg : alloc_config) (st : alloc_state)
    (g : Nat) : alloc_state :=
  small_mempool_activate cfg
    { st with active_pool_mask := Function.update st.active_pool_mask g 0 }
    (cfg.last g)

/-- State right after `small_alloc_create` (small.c:241-268): all waste
counters zero, all delayed lists empty, mode `SMALL_FREE`, and every group
initialized by `small_mempool_create_group`. -/
def init_state (cfg : alloc_config) : alloc_state :=
  (List.range cfg.group_count).foldl
    (fun st g => small_mempool_create_group cfg st g)
    { active_pool_mask := fun _ => 0
      used_pool := fun _ => 0
      waste := fun _ => 0
      delayed := fun _ => []
      pool_delayed := []
      delayed_large := []
      free_mode := SMALL_FREE
      live := [] }

/-- Embeds `small_mempool_search` (small.c:171-180): `none` when the size
exceeds `objsize_max` (large allocation), otherwise the class index. -/
def small_mempool_search (cfg : alloc_config) (size : Nat) : Option Nat :=
  if cfg.objsize_max < size then none
  else some (class_by_size cfg.sc size)

/-- Embeds `small_alloc_setopt` (small.c:270-282) for
`SMALL_DELAYED_FREE_MODE` (the only option). -/
def small_alloc_setopt (st : alloc_state) (val : Bool) : alloc_state :=
  { st with
    free_mode := if val then SMALL_DELAYED_FREE else SMALL_COLLECT_GARBAGE }

/-- Embeds the large-slab drain loop of `small_collect_garbage`
(small.c:291-299): pop up to `fuel` items from `delayed_large`, stopping
early when the list empties; each popped slab goes back to the slab cache
(external to the model). -/
def collect_large : Nat → List Obj → List Obj
  | 0, l => l
  | _ + 1, [] => []
  | fuel + 1, _ :: rest => collect_large fuel rest

/-- Embeds the regular drain loop of `small_collect_garbage`
(small.c:300-322): `pool` is the local variable holding the head of the
allocator's delayed list.  Each iteration pops one object from the current
pool's `delayed` LIFO; a pool whose LIFO is empty is popped from the
allocator's delayed list and the scan moves on (consuming the iteration,
as `continue` does).  A drained object decrements the nominal pool's
waste by `actual objsize - nominal objsize` and is returned via
`mempool_free_slab` (external to the model). -/
def collect_regular (cfg : alloc_config) :
    Nat → alloc_state → Option Nat → alloc_state
  | 0, st, _ => st
  | _ + 1, st, none => st
  | fuel + 1, st, some p =>
    match st.delayed p with
    | [] =>
      let st1 := { st with pool_delayed := st.pool_delayed.tail }
      match st1.pool_delayed.head? with
      | none => st1
      | some p2 => collect_regular cfg fuel st1 (some p2)
    | o :: rest =>
      let st1 := { st with
        delayed := Function.update st.delayed p rest,
        waste := Function.update st.waste p
          (st.waste p - (cfg.objsize o.actual - cfg.objsize p)) }
      collect_regular cfg fuel st1 (some p)

/-- Embeds `small_collect_garbage` (small.c:284-327): a no-op outside
`SMALL_COLLECT_GARBAGE`; otherwise drain up to `BATCH = 100` large slabs
if any are pending, else up to `BATCH` regular delayed objects, else
switch back to `SMALL_FREE`. -/
def small_collect_garbage (cfg : alloc_config) (st : alloc_state) :
    alloc_state :=
  if st.free_mode ≠ SMALL_COLLECT_GARBAGE then st
  else if st.delayed_large ≠ [] then
    { st with delayed_large := collect_large 100 st.delayed_large }
  else if st.pool_delayed ≠ [] then
    collect_regular cfg 100 st st.pool_delayed.head?
  else
    { st with free_mode := SMALL_FREE }

/-- Embeds the post-GC body of `smalloc` (small.c:344-375).  `ok` tells
whether `mempool_alloc` returned non-NULL (out-of-memory is external
nondeterminism).  On a successful small allocation the new object (ghost)
is carved from the slab of `used_pool`; if the serving pool is a donor,
waste grows by the objsize difference and crossing `waste_max` activates
the pool. -/
def smalloc_core (cfg : alloc_config) (st : alloc_state) (size : Nat)
    (ok : Bool) : alloc_state :=
  match small_mempool_search cfg size with
  | none => st
  | some c =>
    let donor := st.used_pool c
    if ok then
      let st1 := { st with live := ⟨size, donor⟩ :: st.live }
      if donor ≠ c then
        let w := st1.waste c + (cfg.objsize donor - cfg.objsize c)
        let st2 := { st1 with waste := Function.update st1.waste c w }
        if cfg.waste_max (cfg.group_of c) ≤ w then
          small_mempool_activate cfg st2 c
        else st2
      else st1
    else st

/-- Embeds `smalloc` (small.c:339-375): first the garbage-collection step,
then the allocation proper. -/
def smalloc (cfg : alloc_config) (st : alloc_state) (size : Nat)
    (ok : Bool) : alloc_state :=
  smalloc_core cfg (small_collect_garbage cfg st) size ok

/-- Embeds `smfree` (small.c:396-418).  A large object goes back to the
slab cache (external).  A small object's nominal pool is found from the
size; the actual pool comes from `slab_from_ptr` (the `actual` field);
waste shrinks by the objsize difference and the object stops being
live. -/
def smfree (cfg : alloc_config) (st : alloc_state) (o : Obj) : alloc_state :=
  match small_mempool_search cfg o.size with
  | none => st
  | some c =>
    { st with
      waste := Function.update st.waste c
        (st.waste c - (cfg.objsize o.actual - cfg.objsize c)),
      live := st.live.erase o }

/-- Embeds `smfree_delayed` (small.c:425-442).  In `SMALL_DELAYED_FREE`
mode a large object is pushed onto `delayed_large` and a small object onto
its nominal pool's `delayed` LIFO — enqueuing the pool itself on the
allocator's delayed list when that LIFO was empty; in every other mode the
call is `smfree`. -/
def smfree_delayed (cfg : alloc_config) (st : alloc_state) (o : Obj) :
    alloc_state :=
  if st.free_mode = SMALL_DELAYED_FREE then
    match small_mempool_search cfg o.size with
    | none => { st with delayed_large := o :: st.delayed_large }
    | some c =>
      let st1 :=
        if st.delayed c = [] then
          { st with pool_delayed := c :: st.pool_delayed }
        else st
      { st1 with
        delayed := Function.update st1.delayed c (o :: st1.delayed c),
        live := st1.live.erase o }
  else smfree cfg st o

/-!  Transition system over the public entry points.  -/

/-- One public call into the allocator between create and destroy. -/
inductive Action where
  | alloc (size : Nat) (ok : Bool)
  | free (o : Obj)
  | freeDelayed (o : Obj)
  | setopt (val : Bool)
  deriving DecidableEq, Repr

/-- Effect of one call. -/
def stepFn (cfg : alloc_config) (st : alloc_state) : Action → alloc_state
  | .alloc size ok => smalloc cfg st size ok
  | .free o => smfree cfg st o
  | .freeDelayed o => smfree_delayed cfg st o
  | .setopt val => small_alloc_setopt st val

/-- Caller contract of a call: frees must present an object that was
allocated by `smalloc` with the same size and is still live (no
double-free, exact size).  Large frees are unconstrained here (the slab
cache owns them). -/
def ValidAction (cfg : alloc_config) (st : alloc_state) : Action → Prop
  | .alloc _ _ => True
  | .free o => o.size ≤ cfg.objsize_max → o ∈ st.live
  | .freeDelayed o => o.size ≤ cfg.objsize_max → o ∈ st.live
  | .setopt _ => True

/-- States reachable from `small_alloc_create` through valid calls. -/
inductive Reachable (cfg : alloc_config) : alloc_state → Prop where
  | init : Reachable cfg (init_state cfg)
  | step {st : alloc_state} {a : Action} : Reachable cfg st →
      ValidAction cfg st a → Reachable cfg (stepFn cfg st a)

/-!  Well-formedness of the created configuration and the state
invariant.  -/

/-- What `small_alloc_create` guarantees about the fixed data: pools are
partitioned into contiguous groups of at most `POOL_PER_GROUP_MAX = 32`
pools, objsizes strictly grow with the class index, every pool's
appropriate-pool mask has exactly the bits of the no-smaller peers, and
the class table covers every size up to `objsize_max` with a pool at
least that big. -/
structure CfgWF (cfg : alloc_config) : Prop where
  pool_count_pos : 0 < cfg.pool_count
  group_lt : ∀ i < cfg.pool_count, cfg.group_of i < cfg.group_count
  first_le : ∀ i < cfg.pool_count, cfg.first (cfg.group_of i) ≤ i
  le_last : ∀ i < cfg.pool_count, i ≤ cfg.last (cfg.group_of i)
  first_le_last : ∀ g < cfg.group_count, cfg.first g ≤ cfg.last g
  last_lt : ∀ g < cfg.group_count, cfg.last g < cfg.pool_count
  group_size : ∀ g < cfg.group_count, cfg.last g - cfg.first g < 32
  contiguous : ∀ g < cfg.group_count, ∀ i ≤ cfg.last g, cfg.first g ≤ i →
      cfg.group_of i = g
  appr : ∀ i < cfg.pool_count,
      cfg.appropriate_pool_mask i = appropriate_mask (i - cfg.first (cfg.group_of i))
  objsize_mono : ∀ j < cfg.pool_count, ∀ i < j, cfg.objsize i < cfg.objsize j
  class_lt : ∀ s ≤ cfg.objsize_max, class_by_size cfg.sc s < cfg.pool_count
  class_fits : ∀ s ≤ cfg.objsize_max, s ≤ cfg.objsize (class_by_size cfg.sc s)

/-- Well-formedness of one small object held by the allocator: the object
is a small one, its owning pool exists, and the owning pool's objects are
no smaller than the nominal class's. -/
def ObjOK (cfg : alloc_config) (o : Obj) : Prop :=
  o.size ≤ cfg.objsize_max ∧ o.actual < cfg.pool_count ∧
  cfg.objsize (class_by_size cfg.sc o.size) ≤ cfg.objsize o.actual

instance (cfg : alloc_config) (o : Obj) : Decidable (ObjOK cfg o) := by
  unfold ObjOK
  infer_instance

/-- Bytes lost to borrowing on one object: the objsize of the pool the
object was carved from minus the objsize of its nominal class pool. -/
def diff_of (cfg : alloc_config) (o : Obj) : Nat :=
  cfg.objsize o.actual - cfg.objsize (class_by_size cfg.sc o.size)

/-- The waste a pool should be accounting for: the borrowing losses of all
live objects of its class plus those of the objects parked on its delayed
LIFO. -/
def wasteSum (cfg : alloc_config) (st : alloc_state) (p : Nat) : Nat :=
  ((st.live.filter fun o => class_by_size cfg.sc o.size == p).map
      (diff_of cfg)).sum +
  ((st.delayed p).map (diff_of cfg)).sum

/-- The inductive state invariant: group masks stay within the group
width and always contain the last pool's bit; `used_pool` always equals
the tight-fit formula `first + ffs(active_pool_mask & appropriate_pool_mask) - 1`;
all retained objects are well formed, delayed objects sit on the LIFO of
their nominal class, the allocator-level delayed list names real pools,
and each pool's waste counter equals its accounted borrowing losses. -/
structure Inv (cfg : alloc_config) (st : alloc_state) : Prop where
  mask_lt : ∀ g < cfg.group_count,
      st.active_pool_mask g < 2 ^ (cfg.last g - cfg.first g + 1)
  last_active : ∀ g < cfg.group_count,
      (st.active_pool_mask g).testBit (cfg.last g - cfg.first g)
  used_eq : ∀ i < cfg.pool_count,
      st.used_pool i = cfg.first (cfg.group_of i) +
        (ffs (st.active_pool_mask (cfg.group_of i) &&&
              cfg.appropriate_pool_mask i) - 1)
  live_ok : ∀ o ∈ st.live, ObjOK cfg o
  delayed_ok : ∀ p < cfg.pool_count, ∀ o ∈ st.delayed p,
      ObjOK cfg o ∧ class_by_size cfg.sc o.size = p
  pool_delayed_lt : ∀ p ∈ st.pool_delayed, p < cfg.pool_count
  waste_eq : ∀ p < cfg.pool_count, st.waste p = wasteSum cfg st p

/-!  The tight-fit characterization of
`first + ffs(mask & appropriate_pool_mask) - 1`.  -/

theorem mask_bit_le {m k b : Nat} (hm : m < 2 ^ (k + 1)) (hb : m.testBit b) :
    b ≤ k := by
  by_contra hgt
  have hk : k + 1 ≤ b := by omega
  have : m < 2 ^ b := Nat.lt_of_lt_of_le hm (Nat.pow_le_pow_right (by omega) hk)
  rw [Nat.testBit_lt_two_pow this] at hb
  exact Bool.noConfusion hb

/-- Given a group-local active mask `m` whose bits stay within the group
width and which contains the last pool's bit, the value
`first + ffs(m & appropriate_mask (i - first)) - 1` is exactly the
lowest-indexed pool of the group whose bit is set in `m` and whose index
is at least `i`. -/
theorem tight_fit_spec (m first last i : Nat)
    (hfl : first ≤ i) (hll : i ≤ last) (hgs : last - first < 32)
    (hmlt : m < 2 ^ (last - first + 1))
    (hex : ∃ b, i - first ≤ b ∧ b ≤ last - first ∧ m.testBit b) :
    let u := first + (ffs (m &&& appropriate_mask (i - first)) - 1)
    i ≤ u ∧ u ≤ last ∧ m.testBit (u - first) ∧
    ∀ j, i ≤ j → j ≤ last → m.testBit (j - first) → u ≤ j := by
  intro u
  have hidx32 : i - first ≤ 32 := by omega
  have htb : ∀ b, (m &&& appropriate_mask (i - first)).testBit b =
      (m.testBit b && (decide (i - first ≤ b) && decide (b < 32))) := by
    intro b
    rw [Nat.testBit_and, appropriate_mask_testBit _ _ hidx32]
  obtain ⟨b0, hb01, hb02, hb03⟩ := hex
  have hb0 : (m &&& appropriate_mask (i - first)).testBit b0 := by
    rw [htb]
    simp only [hb03, Bool.true_and]
    have h2 : b0 < 32 := by omega
    simp [hb01, h2]
  obtain ⟨hf1, hf2, hf3, hf4⟩ :=
    ffs_spec (m &&& appropriate_mask (i - first)) ⟨b0, by omega, hb0⟩
  set b := ffs (m &&& appropriate_mask (i - first)) - 1 with hbdef
  rw [htb] at hf3
  have hmb : m.testBit b := by
    rcases Bool.and_eq_true_iff.mp hf3 with ⟨h, _⟩
    exact h
  have hib : i - first ≤ b := by
    rcases Bool.and_eq_true_iff.mp hf3 with ⟨_, h⟩
    rcases Bool.and_eq_true_iff.mp h with ⟨h1, _⟩
    exact of_decide_eq_true h1
  have hble : b ≤ last - first := mask_bit_le hmlt hmb
  have hu : u = first + b := rfl
  refine ⟨by omega, by omega, ?_, ?_⟩
  · have : u - first = b := by omega
    rw [this]
    exact hmb
  · intro j hij hjl hjb
    have hjf : i - first ≤ j - first := by omega
    have hjlt : j - first < 32 := by omega
    have hset : (m &&& appropriate_mask (i - first)).testBit (j - first) := by
      rw [htb]
      simp [hjb, hjf, hjlt]
    have : b ≤ j - first := by
      by_contra hlt
      exact (hf4 (j - first) (by omega)) hset
    omega

/-- Derived routing facts for any state satisfying the invariant: every
pool's `used_pool` is a real pool of the same group, at or above the
pool's own index, with its bit set in the active mask, with an objsize at
least as large, and minimal with these properties. -/
theorem used_pool_spec (cfg : alloc_config) (st : alloc_state)
    (hWF : CfgWF cfg) (hInv : Inv cfg st) (i : Nat) (hi : i < cfg.pool_count) :
    i ≤ st.used_pool i ∧ st.used_pool i ≤ cfg.last (cfg.group_of i) ∧
    st.used_pool i < cfg.pool_count ∧
    cfg.group_of (st.used_pool i) = cfg.group_of i ∧
    (st.active_pool_mask (cfg.group_of i)).testBit
      (st.used_pool i - cfg.first (cfg.group_of i)) ∧
    cfg.objsize i ≤ cfg.objsize (st.used_pool i) ∧
    ∀ j, i ≤ j → j ≤ cfg.last (cfg.group_of i) →
      (st.active_pool_mask (cfg.group_of i)).testBit
        (j - cfg.first (cfg.group_of i)) → st.used_pool i ≤ j := by
  have hg : cfg.group_of i < cfg.group_count := hWF.group_lt i hi
  have hfl := hWF.first_le i hi
  have hll := hWF.le_last i hi
  have hgs := hWF.group_size (cfg.group_of i) hg
  have hmlt := hInv.mask_lt (cfg.group_of i) hg
  have hlast := hInv.last_active (cfg.group_of i) hg
  have happr := hWF.appr i hi
  have hueq := hInv.used_eq i hi
  rw [happr] at hueq
  obtain ⟨h1, h2, h3, h4⟩ :=
    tight_fit_spec (st.active_pool_mask (cfg.group_of i)) (cfg.first (cfg.group_of i))
      (cfg.last (cfg.group_of i)) i hfl hll hgs hmlt
      ⟨cfg.last (cfg.group_of i) - cfg.first (cfg.group_of i), by omega,
        Nat.le_refl _, hlast⟩
  rw [← hueq] at h1 h2 h3 h4
  have hlt : st.used_pool i < cfg.pool_count :=
    Nat.lt_of_le_of_lt h2 (hWF.last_lt (cfg.group_of i) hg)
  have hgrp : cfg.group_of (st.used_pool i) = cfg.group_of i :=
    hWF.contiguous (cfg.group_of i) hg (st.used_pool i) h2 (by omega)
  have hobj : cfg.objsize i ≤ cfg.objsize (st.used_pool i) := by
    rcases Nat.eq_or_lt_of_le h1 with h | h
    · exact Nat.le_of_eq (congrArg cfg.objsize h)
    · exact Nat.le_of_lt (hWF.objsize_mono (st.used_pool i) hlt i h)
  exact ⟨h1, h2, hlt, hgrp, h3, hobj, h4⟩

/-- If a pool's own bit is set in the active mask then the tight-fit
formula routes the pool to itself; contrapositive: a pool still borrowing
has its bit clear — this is the assertion at the top of
`small_mempool_activate`. -/
theorem self_bit_used_self (cfg : alloc_config) (st : alloc_state)
    (hWF : CfgWF cfg) (hInv : Inv cfg st) (i : Nat) (hi : i < cfg.pool_count)
    (hbit : (st.active_pool_mask (cfg.group_of i)).testBit
      (i - cfg.first (cfg.group_of i))) :
    st.used_pool i = i := by
  obtain ⟨h1, _, _, _, _, _, h7⟩ := used_pool_spec cfg st hWF hInv i hi
  have := h7 i (Nat.le_refl i) (hWF.le_last i hi) hbit
  omega

/-!  List bookkeeping lemmas for the waste accounting.  -/

theorem sum_map_filter_erase {α : Type} [DecidableEq α] (f : α → Nat)
    (p : α → Bool) (l : List α) (o : α) (ho : o ∈ l) (hp : p o = true) :
    (((l.erase o).filter p).map f).sum + f o = ((l.filter p).map f).sum := by
  induction l with
  | nil => cases ho
  | cons a l ih =>
    by_cases hao : a = o
    · subst hao
      rw [List.erase_cons_head]
      simp [List.filter_cons, hp]
      omega
    · rw [List.erase_cons_tail (by simpa using fun h => hao h)]
      have ho' : o ∈ l := by
        rcases List.mem_cons.mp ho with h | h
        · exact absurd h.symm hao
        · exact h
      by_cases hpa : p a = true
      · simp [List.filter_cons, hpa]
        have := ih ho'
        omega
      · simp only [Bool.not_eq_true] at hpa
        simp [List.filter_cons, hpa]
        exact ih ho'

theorem filter_erase_of_not {α : Type} [DecidableEq α] (p : α → Bool)
    (l : List α) (o : α) (hp : p o = false) :
    (l.erase o).filter p = l.filter p := by
  induction l with
  | nil => simp
  | cons a l ih =>
    by_cases hao : a = o
    · subst hao
      rw [List.erase_cons_head]
      simp [List.filter_cons, hp]
    · rw [List.erase_cons_tail (by simpa using fun h => hao h)]
      by_cases hpa : p a = true
      · simp [List.filter_cons, hpa, ih]
      · simp only [Bool.not_eq_true] at hpa
        simp [List.filter_cons, hpa, ih]

theorem mem_sum_map_filter_le {α : Type} [DecidableEq α] (f : α → Nat)
    (p : α → Bool) (l : List α) (o : α) (ho : o ∈ l) (hp : p o = true) :
    f o ≤ ((l.filter p).map f).sum := by
  have := sum_map_filter_erase f p l o ho hp
  omega

/-!  Frame lemmas: which state components each operation can touch.  -/

theorem activate_frame (cfg : alloc_config) (st : alloc_state) (p : Nat) :
    (small_mempool_activate cfg st p).waste = st.waste ∧
    (small_mempool_activate cfg st p).delayed = st.delayed ∧
    (small_mempool_activate cfg st p).pool_delayed = st.pool_delayed ∧
    (small_mempool_activate cfg st p).delayed_large = st.delayed_large ∧
    (small_mempool_activate cfg st p).free_mode = st.free_mode ∧
    (small_mempool_activate cfg st p).live = st.live :=
  ⟨rfl, rfl, rfl, rfl, rfl, rfl⟩

theorem collect_large_eq_drop : ∀ fuel l, collect_large fuel l = l.drop fuel := by
  intro fuel
  induction fuel with
  | zero => intro l; rfl
  | succ n ih =>
    intro l
    cases l with
    | nil => simp [collect_large]
    | cons a l => simp [collect_large, ih]

theorem collect_regular_frame (cfg : alloc_config) :
    ∀ fuel st pool,
      (collect_regular cfg fuel st pool).active_pool_mask = st.active_pool_mask ∧
      (collect_regular cfg fuel st pool).used_pool = st.used_pool ∧
      (collect_regular cfg fuel st pool).delayed_large = st.delayed_large ∧
      (collect_regular cfg fuel st pool).free_mode = st.free_mode ∧
      (collect_regular cfg fuel st pool).live = st.live := by
  intro fuel
  induction fuel with
  | zero => intro st pool; exact ⟨rfl, rfl, rfl, rfl, rfl⟩
  | succ n ih =>
    intro st pool
    cases pool with
    | none => exact ⟨rfl, rfl, rfl, rfl, rfl⟩
    | some p =>
      cases hd : st.delayed p with
      | nil =>
        simp only [collect_regular, hd]
        cases hh : ({ st with pool_delayed := st.pool_delayed.tail } :
            alloc_state).pool_delayed.head? with
        | none => exact ⟨rfl, rfl, rfl, rfl, rfl⟩
        | some p2 => exact ih _ _
      | cons o rest =>
        simp only [collect_regular, hd]
        exact ih _ _

theorem smalloc_core_frame (cfg : alloc_config) (st : alloc_state)
    (size : Nat) (ok : Bool) :
    (smalloc_core cfg st size ok).delayed = st.delayed ∧
    (smalloc_core cfg st size ok).pool_delayed = st.pool_delayed ∧
    (smalloc_core cfg st size ok).delayed_large = st.delayed_large ∧
    (smalloc_core cfg st size ok).free_mode = st.free_mode := by
  unfold smalloc_core
  split
  · exact ⟨rfl, rfl, rfl, rfl⟩
  · dsimp only
    split_ifs <;> exact ⟨rfl, rfl, rfl, rfl⟩

/-!  Bit computations used by activation and group creation.  -/

theorem testBit_shiftLeft_one (idx b : Nat) :
    (1 <<< idx).testBit b = decide (idx = b) := by
  rw [Nat.shiftLeft_eq, Nat.one_mul]
  exact Nat.testBit_two_pow

/-- Adding a bit strictly below every bit of an appropriate-pool mask does
not change the masked value: activation of pool `p` leaves the donor
computation of the higher-indexed pools untouched. -/
theorem or_low_bit_and_appr (m idxp idxi : Nat) (hlt : idxp < idxi) :
    ((m ||| 1 <<< idxp) &&& appropriate_mask idxi) =
    (m &&& appropriate_mask idxi) := by
  apply Nat.eq_of_testBit_eq
  intro b
  rw [Nat.testBit_and, Nat.testBit_and, Nat.testBit_or, testBit_shiftLeft_one]
  by_cases hb : idxp = b
  · subst hb
    by_cases hi : idxi ≤ 32
    · rw [appropriate_mask_testBit _ _ hi]
      have : ¬ idxi ≤ idxp := by omega
      simp [this]
    · have h32 : appropriate_mask idxi = 0 := by
        unfold appropriate_mask
        have : 2 ^ 32 ≤ 2 ^ idxi := Nat.pow_le_pow_right (by omega) (by omega)
        omega
      simp [h32]
  · simp [hb]

theorem shiftLeft_one_and_appr (idx idxi : Nat) (h1 : idxi ≤ idx)
    (h2 : idx < 32) : (1 <<< idx) &&& appropriate_mask idxi = 1 <<< idx := by
  apply Nat.eq_of_testBit_eq
  intro b
  rw [Nat.testBit_and, testBit_shiftLeft_one,
      appropriate_mask_testBit _ _ (by omega)]
  by_cases hb : idx = b
  · subst hb
    simp [h1, h2]
  · simp [hb]

theorem ffs_shiftLeft_one (idx : Nat) (h : idx < 32) :
    ffs (1 <<< idx) = idx + 1 := by
  have hset : (1 <<< idx).testBit idx = true := by
    rw [testBit_shiftLeft_one]
    simp
  have hmin : ∀ k, k < idx → ¬ (1 <<< idx).testBit k := by
    intro k hk
    rw [testBit_shiftLeft_one]
    simp
    omega
  have := ffs_eq_of_least (1 <<< idx) idx h hset hmin
  have h1 := (ffs_spec (1 <<< idx) ⟨idx, h, hset⟩).1
  omega

theorem shiftLeft_one_lt (idx k : Nat) (h : idx ≤ k) :
    1 <<< idx < 2 ^ (k + 1) := by
  rw [Nat.shiftLeft_eq, Nat.one_mul]
  exact Nat.pow_lt_pow_right (by omega) (by omega)

/-!  Invariant preservation, operation by operation.  -/

theorem search_some (cfg : alloc_config) (size c : Nat)
    (h : small_mempool_search cfg size = some c) :
    size ≤ cfg.objsize_max ∧ c = class_by_size cfg.sc size := by
  unfold small_mempool_search at h
  split at h
  · cases h
  · rename_i hle
    exact ⟨by omega, (Option.some.inj h).symm⟩

theorem setopt_inv (cfg : alloc_config) (st : alloc_state) (val : Bool)
    (hInv : Inv cfg st) : Inv cfg (small_alloc_setopt st val) :=
  ⟨hInv.mask_lt, hInv.last_active, hInv.used_eq, hInv.live_ok,
   hInv.delayed_ok, hInv.pool_delayed_lt, hInv.waste_eq⟩

theorem smfree_inv (cfg : alloc_config) (st : alloc_state) (o : Obj)
    (hWF : CfgWF cfg) (hInv : Inv cfg st)
    (hV : o.size ≤ cfg.objsize_max → o ∈ st.live) :
    Inv cfg (smfree cfg st o) := by
  unfold smfree
  cases hs : small_mempool_search cfg o.size with
  | none => exact hInv
  | some c =>
    obtain ⟨hsize, hc⟩ := search_some cfg o.size c hs
    have ho : o ∈ st.live := hV hsize
    have hdiff : cfg.objsize o.actual - cfg.objsize c = diff_of cfg o := by
      rw [diff_of, hc]
    refine ⟨hInv.mask_lt, hInv.last_active, hInv.used_eq, ?_, hInv.delayed_ok,
      hInv.pool_delayed_lt, ?_⟩
    · intro o' ho'
      exact hInv.live_ok o' (List.mem_of_mem_erase ho')
    · intro p hp
      show Function.update st.waste c
        (st.waste c - (cfg.objsize o.actual - cfg.objsize c)) p = _
      by_cases hpc : p = c
      · subst hpc
        rw [Function.update_same, hdiff]
        have hweq := hInv.waste_eq p hp
        have hpred : (fun o' => class_by_size cfg.sc o'.size == p) o = true := by
          simp [hc]
        have hkey := sum_map_filter_erase (diff_of cfg)
          (fun o' => class_by_size cfg.sc o'.size == p) st.live o ho hpred
        unfold wasteSum at hweq ⊢
        simp only
        omega
      · rw [Function.update_noteq hpc]
        have hweq := hInv.waste_eq p hp
        have hpred : (fun o' => class_by_size cfg.sc o'.size == p) o = false := by
          simp [hc]
          omega
        have hkey := filter_erase_of_not
          (fun o' => class_by_size cfg.sc o'.size == p) st.live o hpred
        unfold wasteSum at hweq ⊢
        simp only
        rw [hkey]
        exact hweq

/-- Invariant preservation for the delayed-push path of `smfree_delayed`:
moving a live object of class `c` onto its pool's delayed LIFO, with any
allocator-level delayed list naming real pools, keeps the invariant. -/
theorem smfree_delayed_push_inv (cfg : alloc_config) (st : alloc_state)
    (o : Obj) (c : Nat) (pd : List Nat) (hInv : Inv cfg st)
    (ho : o ∈ st.live) (hc : c = class_by_size cfg.sc o.size)
    (hpd : ∀ p ∈ pd, p < cfg.pool_count) :
    Inv cfg
      { active_pool_mask := st.active_pool_mask
        used_pool := st.used_pool
        waste := st.waste
        delayed := Function.update st.delayed c (o :: st.delayed c)
        pool_delayed := pd
        delayed_large := st.delayed_large
        free_mode := st.free_mode
        live := st.live.erase o } := by
  have hobjok : ObjOK cfg o := hInv.live_ok o ho
  refine ⟨hInv.mask_lt, hInv.last_active, hInv.used_eq, ?_, ?_, hpd, ?_⟩
  · intro o' ho'
    exact hInv.live_ok o' (List.mem_of_mem_erase ho')
  · intro p hp o' ho'
    simp only at ho'
    by_cases hpc : p = c
    · subst hpc
      rw [Function.update_same] at ho'
      rcases List.mem_cons.mp ho' with h | h
      · subst h
        exact ⟨hobjok, hc.symm⟩
      · exact hInv.delayed_ok p hp o' h
    · rw [Function.update_noteq hpc] at ho'
      exact hInv.delayed_ok p hp o' ho'
  · intro p hp
    have hweq := hInv.waste_eq p hp
    unfold wasteSum at hweq ⊢
    simp only
    by_cases hpc : p = c
    · subst hpc
      rw [Function.update_same]
      have hpred : (fun o' => class_by_size cfg.sc o'.size == p) o = true := by
        simp [hc]
      have hkey := sum_map_filter_erase (diff_of cfg)
        (fun o' => class_by_size cfg.sc o'.size == p) st.live o ho hpred
      simp only [List.map_cons, List.sum_cons]
      omega
    · rw [Function.update_noteq hpc]
      have hpred : (fun o' => class_by_size cfg.sc o'.size == p) o = false := by
        simp [hc]
        omega
      rw [filter_erase_of_not
        (fun o' => class_by_size cfg.sc o'.size == p) st.live o hpred]
      exact hweq

theorem smfree_delayed_inv (cfg : alloc_config) (st : alloc_state) (o : Obj)
    (hWF : CfgWF cfg) (hInv : Inv cfg st)
    (hV : o.size ≤ cfg.objsize_max → o ∈ st.live) :
    Inv cfg (smfree_delayed cfg st o) := by
  unfold smfree_delayed
  by_cases hm : st.free_mode = SMALL_DELAYED_FREE
  · rw [if_pos hm]
    cases hs : small_mempool_search cfg o.size with
    | none =>
      exact ⟨hInv.mask_lt, hInv.last_active, hInv.used_eq, hInv.live_ok,
        hInv.delayed_ok, hInv.pool_delayed_lt, hInv.waste_eq⟩
    | some c =>
      obtain ⟨hsize, hc⟩ := search_some cfg o.size c hs
      have ho : o ∈ st.live := hV hsize
      have hclt : c < cfg.pool_count := by
        rw [hc]
        exact hWF.class_lt o.size hsize
      dsimp only
      by_cases hdel : st.delayed c = []
      · rw [if_pos hdel]
        refine smfree_delayed_push_inv cfg st o c (c :: st.pool_delayed)
          hInv ho hc ?_
        intro p hp
        rcases List.mem_cons.mp hp with h | h
        · omega
        · exact hInv.pool_delayed_lt p h
      · rw [if_neg hdel]
        exact smfree_delayed_push_inv cfg st o c st.pool_delayed
          hInv ho hc hInv.pool_delayed_lt
  · rw [if_neg hm]
    exact smfree_inv cfg st o hWF hInv hV

theorem activate_inv (cfg : alloc_config) (st : alloc_state) (p : Nat)
    (hWF : CfgWF cfg) (hInv : Inv cfg st) (hp : p < cfg.pool_count) :
    Inv cfg (small_mempool_activate cfg st p) := by
  have hg : cfg.group_of p < cfg.group_count := hWF.group_lt p hp
  have hfl : cfg.first (cfg.group_of p) ≤ p := hWF.first_le p hp
  have hll : p ≤ cfg.last (cfg.group_of p) := hWF.le_last p hp
  have hgs : cfg.last (cfg.group_of p) - cfg.first (cfg.group_of p) < 32 :=
    hWF.group_size _ hg
  refine ⟨?_, ?_, ?_, hInv.live_ok, hInv.delayed_ok, hInv.pool_delayed_lt,
    hInv.waste_eq⟩
  · intro g hgc
    show Function.update st.active_pool_mask (cfg.group_of p) _ g < _
    by_cases hgg : g = cfg.group_of p
    · subst hgg
      rw [Function.update_same]
      exact Nat.or_lt_two_pow (hInv.mask_lt _ hgc)
        (shiftLeft_one_lt _ _ (by omega))
    · rw [Function.update_noteq hgg]
      exact hInv.mask_lt g hgc
  · intro g hgc
    show (Function.update st.active_pool_mask (cfg.group_of p) _ g).testBit _
    by_cases hgg : g = cfg.group_of p
    · subst hgg
      rw [Function.update_same, Nat.testBit_or, hInv.last_active _ hgc]
      simp
    · rw [Function.update_noteq hgg]
      exact hInv.last_active g hgc
  · intro i hi
    show (if cfg.first (cfg.group_of p) ≤ i ∧ i ≤ p then _ else st.used_pool i) =
      cfg.first (cfg.group_of i) +
        (ffs (Function.update st.active_pool_mask (cfg.group_of p) _
          (cfg.group_of i) &&& cfg.appropriate_pool_mask i) - 1)
    by_cases hrange : cfg.first (cfg.group_of p) ≤ i ∧ i ≤ p
    · rw [if_pos hrange]
      have hgi : cfg.group_of i = cfg.group_of p :=
        hWF.contiguous (cfg.group_of p) hg i (by omega) hrange.1
      rw [hgi, Function.update_same]
    · rw [if_neg hrange]
      by_cases hgi : cfg.group_of i = cfg.group_of p
      · have hfli : cfg.first (cfg.group_of i) ≤ i := hWF.first_le i hi
        have hip : p < i := by
          rw [hgi] at hfli
          omega
        rw [hgi, Function.update_same, hWF.appr i hi, hgi,
          or_low_bit_and_appr _ _ _ (by omega)]
        have := hInv.used_eq i hi
        rw [hWF.appr i hi, hgi] at this
        exact this
      · rw [Function.update_noteq hgi]
        exact hInv.used_eq i hi

theorem smalloc_core_inv (cfg : alloc_config) (st : alloc_state)
    (size : Nat) (ok : Bool) (hWF : CfgWF cfg) (hInv : Inv cfg st) :
    Inv cfg (smalloc_core cfg st size ok) := by
  unfold smalloc_core
  cases hs : small_mempool_search cfg size with
  | none => exact hInv
  | some c =>
    obtain ⟨hsize, hc⟩ := search_some cfg size c hs
    have hclt : c < cfg.pool_count := by
      rw [hc]
      exact hWF.class_lt size hsize
    obtain ⟨hu1, hu2, hu3, hu4, hu5, hu6, hu7⟩ :=
      used_pool_spec cfg st hWF hInv c hclt
    have hobjok : ObjOK cfg (⟨size, st.used_pool c⟩ : Obj) := by
      refine ⟨hsize, hu3, ?_⟩
      show cfg.objsize (class_by_size cfg.sc size) ≤ cfg.objsize (st.used_pool c)
      rw [← hc]
      exact hu6
    have hdiff : diff_of cfg (⟨size, st.used_pool c⟩ : Obj) =
        cfg.objsize (st.used_pool c) - cfg.objsize c := by
      unfold diff_of
      rw [← hc]
    cases ok with
    | false => exact hInv
    | true =>
      dsimp only
      by_cases hne : st.used_pool c ≠ c
      · rw [if_pos hne]
        have hInv2 : Inv cfg
            { st with
              waste := Function.update st.waste c
                (st.waste c + (cfg.objsize (st.used_pool c) - cfg.objsize c))
              live := ⟨size, st.used_pool c⟩ :: st.live } := by
          refine ⟨hInv.mask_lt, hInv.last_active, hInv.used_eq, ?_, ?_,
            hInv.pool_delayed_lt, ?_⟩
          · intro o' ho'
            rcases List.mem_cons.mp ho' with h | h
            · subst h
              exact hobjok
            · exact hInv.live_ok o' h
          · exact hInv.delayed_ok
          · intro q hq
            have hweq := hInv.waste_eq q hq
            unfold wasteSum at hweq ⊢
            simp only [List.filter_cons]
            by_cases hqc : q = c
            · subst hqc
              rw [Function.update_same]
              have : (class_by_size cfg.sc
                  (⟨size, st.used_pool q⟩ : Obj).size == q) = true := by
                simp [hc]
              rw [this]
              simp only [if_true, List.map_cons, List.sum_cons, hdiff]
              omega
            · rw [Function.update_noteq hqc]
              have : (class_by_size cfg.sc
                  (⟨size, st.used_pool c⟩ : Obj).size == q) = false := by
                simp
                omega
              rw [this]
              simp only [Bool.false_eq_true, if_false]
              exact hweq
        by_cases hw : cfg.waste_max (cfg.group_of c) ≤
            st.waste c + (cfg.objsize (st.used_pool c) - cfg.objsize c)
        · rw [if_pos hw]
          exact activate_inv cfg _ c hWF hInv2 hclt
        · rw [if_neg hw]
          exact hInv2
      · rw [if_neg hne]
        push_neg at hne
        have hInv1 : Inv cfg
            { st with live := ⟨size, st.used_pool c⟩ :: st.live } := by
          refine ⟨hInv.mask_lt, hInv.last_active, hInv.used_eq, ?_, ?_,
            hInv.pool_delayed_lt, ?_⟩
          · intro o' ho'
            rcases List.mem_cons.mp ho' with h | h
            · subst h
              exact hobjok
            · exact hInv.live_ok o' h
          · exact hInv.delayed_ok
          · intro q hq
            have hweq := hInv.waste_eq q hq
            unfold wasteSum at hweq ⊢
            simp only [List.filter_cons]
            by_cases hqc : q = c
            · subst hqc
              have hb : (class_by_size cfg.sc
                  (⟨size, st.used_pool q⟩ : Obj).size == q) = true := by
                simp [hc]
              have hzero : diff_of cfg (⟨size, st.used_pool q⟩ : Obj) = 0 := by
                unfold diff_of
                dsimp only
                rw [hne, ← hc]
                omega
              rw [hb]
              simp only [if_true, List.map_cons, List.sum_cons, hzero]
              omega
            · have hb : (class_by_size cfg.sc
                  (⟨size, st.used_pool c⟩ : Obj).size == q) = false := by
                simp
                omega
              rw [hb]
              simp only [Bool.false_eq_true, if_false]
              exact hweq
        exact hInv1

theorem collect_regular_inv (cfg : alloc_config) (hWF : CfgWF cfg) :
    ∀ fuel st pool, Inv cfg st →
      (∀ q, pool = some q → q < cfg.pool_count) →
      Inv cfg (collect_regular cfg fuel st pool) := by
  intro fuel
  induction fuel with
  | zero => intro st pool hInv _; exact hInv
  | succ n ih =>
    intro st pool hInv hq
    cases pool with
    | none => exact hInv
    | some p =>
      have hp : p < cfg.pool_count := hq p rfl
      cases hd : st.delayed p with
      | nil =>
        simp only [collect_regular, hd]
        have hInv1 : Inv cfg { st with pool_delayed := st.pool_delayed.tail } := by
          refine ⟨hInv.mask_lt, hInv.last_active, hInv.used_eq, hInv.live_ok,
            hInv.delayed_ok, ?_, hInv.waste_eq⟩
          intro q hqm
          exact hInv.pool_delayed_lt q (List.mem_of_mem_tail hqm)
        cases hh : ({ st with pool_delayed := st.pool_delayed.tail } :
            alloc_state).pool_delayed.head? with
        | none => exact hInv1
        | some p2 =>
          refine ih _ _ hInv1 ?_
          intro q hqq
          cases hqq
          exact hInv1.pool_delayed_lt p2 (List.mem_of_mem_head? hh)
      | cons o rest =>
        simp only [collect_regular, hd]
        obtain ⟨hook, hocls⟩ := hInv.delayed_ok p hp o (by rw [hd]; exact List.mem_cons_self o rest)
        have hdiffo : cfg.objsize o.actual - cfg.objsize p = diff_of cfg o := by
          unfold diff_of
          rw [hocls]
        have hInv1 : Inv cfg { st with
            delayed := Function.update st.delayed p rest,
            waste := Function.update st.waste p
              (st.waste p - (cfg.objsize o.actual - cfg.objsize p)) } := by
          refine ⟨hInv.mask_lt, hInv.last_active, hInv.used_eq, hInv.live_ok,
            ?_, hInv.pool_delayed_lt, ?_⟩
          · intro q hql o' ho'
            dsimp only at ho'
            by_cases hqp : q = p
            · subst hqp
              rw [Function.update_same] at ho'
              exact hInv.delayed_ok q hql o' (by rw [hd]; exact List.mem_cons_of_mem o ho')
            · rw [Function.update_noteq hqp] at ho'
              exact hInv.delayed_ok q hql o' ho'
          · intro q hql
            have hweq := hInv.waste_eq q hql
            unfold wasteSum at hweq ⊢
            simp only
            by_cases hqp : q = p
            · subst hqp
              rw [Function.update_same, Function.update_same, hdiffo]
              rw [hd] at hweq
              simp only [List.map_cons, List.sum_cons] at hweq
              omega
            · rw [Function.update_noteq hqp, Function.update_noteq hqp]
              exact hweq
        exact ih _ _ hInv1 (fun q hqq => by cases hqq; exact hp)

theorem small_collect_garbage_inv (cfg : alloc_config) (st : alloc_state)
    (hWF : CfgWF cfg) (hInv : Inv cfg st) :
    Inv cfg (small_collect_garbage cfg st) := by
  unfold small_collect_garbage
  by_cases hm : st.free_mode ≠ SMALL_COLLECT_GARBAGE
  · rw [if_pos hm]
    exact hInv
  · rw [if_neg hm]
    by_cases hl : st.delayed_large ≠ []
    · rw [if_pos hl]
      exact ⟨hInv.mask_lt, hInv.last_active, hInv.used_eq, hInv.live_ok,
        hInv.delayed_ok, hInv.pool_delayed_lt, hInv.waste_eq⟩
    · rw [if_neg hl]
      by_cases hpd : st.pool_delayed ≠ []
      · rw [if_pos hpd]
        refine collect_regular_inv cfg hWF 100 st st.pool_delayed.head? hInv ?_
        intro q hqq
        exact hInv.pool_delayed_lt q (List.mem_of_mem_head? hqq)
      · rw [if_neg hpd]
        exact ⟨hInv.mask_lt, hInv.last_active, hInv.used_eq, hInv.live_ok,
          hInv.delayed_ok, hInv.pool_delayed_lt, hInv.waste_eq⟩

theorem smalloc_inv (cfg : alloc_config) (st : alloc_state) (size : Nat)
    (ok : Bool) (hWF : CfgWF cfg) (hInv : Inv cfg st) :
    Inv cfg (smalloc cfg st size ok) :=
  smalloc_core_inv cfg _ size ok hWF (small_collect_garbage_inv cfg st hWF hInv)

theorem step_inv (cfg : alloc_config) (st : alloc_state) (a : Action)
    (hWF : CfgWF cfg) (hInv : Inv cfg st) (hV : ValidAction cfg st a) :
    Inv cfg (stepFn cfg st a) := by
  cases a with
  | alloc size ok => exact smalloc_inv cfg st size ok hWF hInv
  | free o => exact smfree_inv cfg st o hWF hInv hV
  | freeDelayed o => exact smfree_delayed_inv cfg st o hWF hInv hV
  | setopt val => exact setopt_inv cfg st val hInv

/-!  Analysis of group creation and the created state.  -/

theorem ffs_last_appr (cfg : alloc_config) (hWF : CfgWF cfg) (i : Nat)
    (hi : i < cfg.pool_count) :
    cfg.first (cfg.group_of i) +
      (ffs ((1 <<< (cfg.last (cfg.group_of i) - cfg.first (cfg.group_of i))) &&&
        cfg.appropriate_pool_mask i) - 1) = cfg.last (cfg.group_of i) := by
  have hg : cfg.group_of i < cfg.group_count := hWF.group_lt i hi
  have hfl := hWF.first_le i hi
  have hll := hWF.le_last i hi
  have hgs := hWF.group_size _ hg
  rw [hWF.appr i hi,
      shiftLeft_one_and_appr _ _ (by omega) (by omega),
      ffs_shiftLeft_one _ (by omega)]
  omega

theorem create_group_mask (cfg : alloc_config) (st : alloc_state) (g g' : Nat)
    (hWF : CfgWF cfg) (hg : g < cfg.group_count) :
    (small_mempool_create_group cfg st g).active_pool_mask g' =
      if g' = g then 1 <<< (cfg.last g - cfg.first g)
      else st.active_pool_mask g' := by
  have hgi : cfg.group_of (cfg.last g) = g :=
    hWF.contiguous g hg (cfg.last g) (Nat.le_refl _) (hWF.first_le_last g hg)
  unfold small_mempool_create_group small_mempool_activate
  dsimp only
  rw [hgi, Function.update_same, Function.update_idem, Nat.zero_or]
  by_cases h : g' = g
  · subst h
    rw [Function.update_same, if_pos rfl]
  · rw [Function.update_noteq h, if_neg h]

theorem create_group_used (cfg : alloc_config) (st : alloc_state) (g i : Nat)
    (hWF : CfgWF cfg) (hg : g < cfg.group_count) :
    (small_mempool_create_group cfg st g).used_pool i =
      if cfg.first g ≤ i ∧ i ≤ cfg.last g then cfg.last g
      else st.used_pool i := by
  have hgi : cfg.group_of (cfg.last g) = g :=
    hWF.contiguous g hg (cfg.last g) (Nat.le_refl _) (hWF.first_le_last g hg)
  unfold small_mempool_create_group small_mempool_activate
  dsimp only
  rw [hgi, Function.update_same, Nat.zero_or]
  by_cases hr : cfg.first g ≤ i ∧ i ≤ cfg.last g
  · rw [if_pos hr, if_pos hr]
    have hi : i < cfg.pool_count :=
      Nat.lt_of_le_of_lt hr.2 (hWF.last_lt g hg)
    have hgii : cfg.group_of i = g := hWF.contiguous g hg i hr.2 hr.1
    have := ffs_last_appr cfg hWF i hi
    rw [hgii] at this
    exact this
  · rw [if_neg hr, if_neg hr]

theorem create_group_frame (cfg : alloc_config) (st : alloc_state) (g : Nat) :
    (small_mempool_create_group cfg st g).waste = st.waste ∧
    (small_mempool_create_group cfg st g).delayed = st.delayed ∧
    (small_mempool_create_group cfg st g).pool_delayed = st.pool_delayed ∧
    (small_mempool_create_group cfg st g).delayed_large = st.delayed_large ∧
    (small_mempool_create_group cfg st g).free_mode = st.free_mode ∧
    (small_mempool_create_group cfg st g).live = st.live :=
  ⟨rfl, rfl, rfl, rfl, rfl, rfl⟩

theorem init_fold_spec (cfg : alloc_config) (hWF : CfgWF cfg)
    (st0 : alloc_state) :
    ∀ n, n ≤ cfg.group_count →
      (∀ g, g < n →
        ((List.range n).foldl
          (fun st g => small_mempool_create_group cfg st g) st0).active_pool_mask g =
          1 <<< (cfg.last g - cfg.first g)) ∧
      (∀ i, i < cfg.pool_count → cfg.group_of i < n →
        ((List.range n).foldl
          (fun st g => small_mempool_create_group cfg st g) st0).used_pool i =
          cfg.last (cfg.group_of i)) ∧
      ((List.range n).foldl
        (fun st g => small_mempool_create_group cfg st g) st0).waste = st0.waste ∧
      ((List.range n).foldl
        (fun st g => small_mempool_create_group cfg st g) st0).delayed = st0.delayed ∧
      ((List.range n).foldl
        (fun st g => small_mempool_create_group cfg st g) st0).pool_delayed =
        st0.pool_delayed ∧
      ((List.range n).foldl
        (fun st g => small_mempool_create_group cfg st g) st0).delayed_large =
        st0.delayed_large ∧
      ((List.range n).foldl
        (fun st g => small_mempool_create_group cfg st g) st0).free_mode =
        st0.free_mode ∧
      ((List.range n).foldl
        (fun st g => small_mempool_create_group cfg st g) st0).live = st0.live := by
  intro n
  induction n with
  | zero =>
    intro _
    refine ⟨?_, ?_, rfl, rfl, rfl, rfl, rfl, rfl⟩
    · intro g hg
      omega
    · intro i _ hgi
      omega
  | succ m ih =>
    intro hn
    have hm : m ≤ cfg.group_count := by omega
    have hmg : m < cfg.group_count := by omega
    obtain ⟨ihm, ihu, ihw, ihd, ihp, ihl, ihf, ihv⟩ := ih hm
    have hsplit : (List.range (m + 1)).foldl
        (fun st g => small_mempool_create_group cfg st g) st0 =
        small_mempool_create_group cfg
          ((List.range m).foldl
            (fun st g => small_mempool_create_group cfg st g) st0) m := by
      rw [List.range_succ, List.foldl_append, List.foldl_cons, List.foldl_nil]
    rw [hsplit]
    set stm := (List.range m).foldl
      (fun st g => small_mempool_create_group cfg st g) st0 with hstm
    refine ⟨?_, ?_, ?_, ?_, ?_, ?_, ?_, ?_⟩
    · intro g hg
      rw [create_group_mask cfg stm m g hWF hmg]
      by_cases hgm : g = m
      · rw [if_pos hgm, hgm]
      · rw [if_neg hgm]
        exact ihm g (by omega)
    · intro i hi hgi
      rw [create_group_used cfg stm m i hWF hmg]
      by_cases hr : cfg.first m ≤ i ∧ i ≤ cfg.last m
      · rw [if_pos hr]
        have : cfg.group_of i = m := hWF.contiguous m hmg i hr.2 hr.1
        rw [this]
      · rw [if_neg hr]
        have hne : cfg.group_of i ≠ m := by
          intro heq
          exact hr ⟨heq ▸ hWF.first_le i hi, heq ▸ hWF.le_last i hi⟩
        exact ihu i hi (by omega)
    · rw [(create_group_frame cfg stm m).1, ihw]
    · rw [(create_group_frame cfg stm m).2.1, ihd]
    · rw [(create_group_frame cfg stm m).2.2.1, ihp]
    · rw [(create_group_frame cfg stm m).2.2.2.1, ihl]
    · rw [(create_group_frame cfg stm m).2.2.2.2.1, ihf]
    · rw [(create_group_frame cfg stm m).2.2.2.2.2, ihv]

theorem init_state_mask (cfg : alloc_config) (hWF : CfgWF cfg) (g : Nat)
    (hg : g < cfg.group_count) :
    (init_state cfg).active_pool_mask g = 1 <<< (cfg.last g - cfg.first g) :=
  (init_fold_spec cfg hWF _ cfg.group_count (Nat.le_refl _)).1 g hg

theorem init_state_used (cfg : alloc_config) (hWF : CfgWF cfg) (i : Nat)
    (hi : i < cfg.pool_count) :
    (init_state cfg).used_pool i = cfg.last (cfg.group_of i) :=
  (init_fold_spec cfg hWF _ cfg.group_count (Nat.le_refl _)).2.1 i hi
    (hWF.group_lt i hi)

theorem init_inv (cfg : alloc_config) (hWF : CfgWF cfg) :
    Inv cfg (init_state cfg) := by
  obtain ⟨_, _, hw, hd, hp, hl, hf, hv⟩ :=
    init_fold_spec cfg hWF _ cfg.group_count (Nat.le_refl cfg.group_count)
  refine ⟨?_, ?_, ?_, ?_, ?_, ?_, ?_⟩
  · intro g hg
    rw [init_state_mask cfg hWF g hg]
    exact shiftLeft_one_lt _ _ (Nat.le_refl _)
  · intro g hg
    rw [init_state_mask cfg hWF g hg, testBit_shiftLeft_one]
    simp
  · intro i hi
    rw [init_state_used cfg hWF i hi, init_state_mask cfg hWF _ (hWF.group_lt i hi)]
    exact (ffs_last_appr cfg hWF i hi).symm
  · intro o ho
    rw [show (init_state cfg).live = [] from hv] at ho
    cases ho
  · intro p hpc o ho
    rw [show (init_state cfg).delayed = fun _ => [] from hd] at ho
    cases ho
  · intro p hpm
    rw [show (init_state cfg).pool_delayed = [] from hp] at hpm
    cases hpm
  · intro p hpc
    unfold wasteSum
    rw [show (init_state cfg).waste = fun _ => 0 from hw,
        show (init_state cfg).live = [] from hv,
        show (init_state cfg).delayed = fun _ => [] from hd]
    simp

theorem reachable_inv (cfg : alloc_config) (st : alloc_state)
    (hWF : CfgWF cfg) (hR : Reachable cfg st) : Inv cfg st := by
  induction hR with
  | init => exact init_inv cfg hWF
  | step hR hV ih => exact step_inv cfg _ _ hWF ih hV

/-!  Mode tracking and drain accounting.  -/

theorem collect_garbage_mask_eq (cfg : alloc_config) (st : alloc_state) :
    (small_collect_garbage cfg st).active_pool_mask = st.active_pool_mask ∧
    (small_collect_garbage cfg st).used_pool = st.used_pool := by
  unfold small_collect_garbage
  split_ifs with h1 h2 h3
  · exact ⟨rfl, rfl⟩
  · exact ⟨rfl, rfl⟩
  · exact ⟨(collect_regular_frame cfg 100 st _).1,
      (collect_regular_frame cfg 100 st _).2.1⟩
  · exact ⟨rfl, rfl⟩

theorem collect_garbage_mode (cfg : alloc_config) (st : alloc_state) :
    (small_collect_garbage cfg st).free_mode =
      if st.free_mode = SMALL_COLLECT_GARBAGE ∧ st.delayed_large = [] ∧
          st.pool_delayed = [] then SMALL_FREE
      else st.free_mode := by
  unfold small_collect_garbage
  by_cases h1 : st.free_mode ≠ SMALL_COLLECT_GARBAGE
  · rw [if_pos h1, if_neg (fun hand => h1 hand.1)]
  · rw [if_neg h1]
    by_cases h2 : st.delayed_large ≠ []
    · rw [if_pos h2, if_neg (fun hand => h2 hand.2.1)]
    · rw [if_neg h2]
      by_cases h3 : st.pool_delayed ≠ []
      · rw [if_pos h3, (collect_regular_frame cfg 100 st _).2.2.2.1,
            if_neg (fun hand => h3 hand.2.2)]
      · rw [if_neg h3]
        push_neg at h1 h2 h3
        rw [if_pos ⟨h1, h2, h3⟩]

theorem smfree_mode (cfg : alloc_config) (st : alloc_state) (o : Obj) :
    (smfree cfg st o).free_mode = st.free_mode := by
  unfold smfree
  cases small_mempool_search cfg o.size with
  | none => rfl
  | some c => rfl

theorem smfree_delayed_mode (cfg : alloc_config) (st : alloc_state) (o : Obj) :
    (smfree_delayed cfg st o).free_mode = st.free_mode := by
  unfold smfree_delayed
  split_ifs with h1
  · cases small_mempool_search cfg o.size with
    | none => rfl
    | some c =>
      dsimp only
      split_ifs with h2
      · rfl
      · rfl
  · exact smfree_mode cfg st o

theorem smalloc_mode (cfg : alloc_config) (st : alloc_state) (size : Nat)
    (ok : Bool) :
    (smalloc cfg st size ok).free_mode =
      if st.free_mode = SMALL_COLLECT_GARBAGE ∧ st.delayed_large = [] ∧
          st.pool_delayed = [] then SMALL_FREE
      else st.free_mode := by
  unfold smalloc
  rw [(smalloc_core_frame cfg _ size ok).2.2.2]
  exact collect_garbage_mode cfg st

/-- Total number of queued delayed items: pending large slabs plus the
objects on every pool's delayed LIFO. -/
def totalDelayed (cfg : alloc_config) (st : alloc_state) : Nat :=
  st.delayed_large.length +
    ((List.range cfg.pool_count).map (fun p => (st.delayed p).length)).sum

theorem map_update_of_not_mem {α : Type} (f : Nat → α) (F : α → Nat)
    (p : Nat) (v : α) (l : List Nat) (hp : p ∉ l) :
    l.map (fun q => F (Function.update f p v q)) = l.map (fun q => F (f q)) := by
  induction l with
  | nil => rfl
  | cons a l ih =>
    have ha : a ≠ p := fun h => hp (h ▸ List.mem_cons_self a l)
    simp only [List.map_cons, Function.update_noteq ha]
    rw [ih (fun h => hp (List.mem_cons_of_mem a h))]

theorem range_sum_update (N p : Nat) (f : Nat → List Obj) (v : List Obj)
    (hp : p < N) :
    ((List.range N).map (fun q => (Function.update f p v q).length)).sum +
      (f p).length =
    ((List.range N).map (fun q => (f q).length)).sum + v.length := by
  induction N with
  | zero => omega
  | succ m ih =>
    rw [List.range_succ, List.map_append, List.map_append, List.sum_append,
        List.sum_append]
    by_cases hpm : p = m
    · subst hpm
      have hnot : p ∉ List.range p := by simp
      rw [map_update_of_not_mem f List.length p v _ hnot]
      simp [Function.update_same]
      omega
    · have hplt : p < m := by omega
      have := ih hplt
      simp only [List.map_cons, List.map_nil, List.sum_cons, List.sum_nil,
        Function.update_noteq (Ne.symm hpm : m ≠ p)]
      omega

theorem collect_regular_total (cfg : alloc_config) :
    ∀ fuel st pool,
      totalDelayed cfg st ≤
        totalDelayed cfg (collect_regular cfg fuel st pool) + fuel := by
  intro fuel
  induction fuel with
  | zero =>
    intro st pool
    simp only [collect_regular]
    omega
  | succ n ih =>
    intro st pool
    cases pool with
    | none =>
      simp only [collect_regular]
      omega
    | some p =>
      cases hd : st.delayed p with
      | nil =>
        simp only [collect_regular, hd]
        cases hh : ({ st with pool_delayed := st.pool_delayed.tail } :
            alloc_state).pool_delayed.head? with
        | none =>
          show totalDelayed cfg st ≤ totalDelayed cfg
            ({ st with pool_delayed := st.pool_delayed.tail } : alloc_state) +
            (n + 1)
          have heq : totalDelayed cfg
              ({ st with pool_delayed := st.pool_delayed.tail } : alloc_state) =
              totalDelayed cfg st := rfl
          omega
        | some p2 =>
          show totalDelayed cfg st ≤ totalDelayed cfg
            (collect_regular cfg n
              ({ st with pool_delayed := st.pool_delayed.tail } : alloc_state)
              (some p2)) + (n + 1)
          have := ih { st with pool_delayed := st.pool_delayed.tail } (some p2)
          have heq : totalDelayed cfg
              ({ st with pool_delayed := st.pool_delayed.tail } : alloc_state) =
              totalDelayed cfg st := rfl
          omega
      | cons o rest =>
        simp only [collect_regular, hd]
        set st1 : alloc_state := { st with
          delayed := Function.update st.delayed p rest,
          waste := Function.update st.waste p
            (st.waste p - (cfg.objsize o.actual - cfg.objsize p)) } with hst1
        have := ih st1 (some p)
        have hbound : totalDelayed cfg st ≤ totalDelayed cfg st1 + 1 := by
          unfold totalDelayed
          by_cases hp : p < cfg.pool_count
          · have hupd := range_sum_update cfg.pool_count p st.delayed rest hp
            have hlen : (st.delayed p).length = rest.length + 1 := by
              rw [hd]
              simp
            rw [hst1]
            dsimp only
            omega
          · have hnot : p ∉ List.range cfg.pool_count := by
              simp
              omega
            have hmap := map_update_of_not_mem st.delayed List.length p rest
              (List.range cfg.pool_count) hnot
            rw [hst1]
            dsimp only
            rw [hmap]
            omega
        omega

theorem smalloc_core_total (cfg : alloc_config) (st : alloc_state)
    (size : Nat) (ok : Bool) :
    totalDelayed cfg (smalloc_core cfg st size ok) = totalDelayed cfg st := by
  unfold totalDelayed
  rw [(smalloc_core_frame cfg st size ok).1,
      (smalloc_core_frame cfg st size ok).2.2.1]

theorem collect_garbage_total (cfg : alloc_config) (st : alloc_state) :
    totalDelayed cfg st ≤ totalDelayed cfg (small_collect_garbage cfg st) + 100 := by
  unfold small_collect_garbage
  split_ifs with h1 h2 h3
  · omega
  · unfold totalDelayed
    dsimp only
    rw [collect_large_eq_drop]
    have : (st.delayed_large.drop 100).length = st.delayed_large.length - 100 := by
      simp
    omega
  · exact collect_regular_total cfg 100 st _
  · have heq : totalDelayed cfg
        ({ st with free_mode := SMALL_FREE } : alloc_state) =
        totalDelayed cfg st := rfl
    omega

/-!  Pointwise description of `small_mempool_activate`.  -/

theorem activate_mask_eq (cfg : alloc_config) (st : alloc_state) (p g : Nat) :
    (small_mempool_activate cfg st p).active_pool_mask g =
      if g = cfg.group_of p then
        st.active_pool_mask (cfg.group_of p) |||
          1 <<< (p - cfg.first (cfg.group_of p))
      else st.active_pool_mask g := by
  unfold small_mempool_activate
  dsimp only
  by_cases h : g = cfg.group_of p
  · subst h
    rw [Function.update_same, if_pos rfl]
  · rw [Function.update_noteq h, if_neg h]

theorem activate_used_eq (cfg : alloc_config) (st : alloc_state) (p i : Nat) :
    (small_mempool_activate cfg st p).used_pool i =
      if cfg.first (cfg.group_of p) ≤ i ∧ i ≤ p then
        cfg.first (cfg.group_of p) +
          (ffs ((st.active_pool_mask (cfg.group_of p) |||
              1 <<< (p - cfg.first (cfg.group_of p))) &&&
            cfg.appropriate_pool_mask i) - 1)
      else st.used_pool i := rfl

/-- Right after `small_mempool_activate p`, the pool `p` itself routes to
itself: its own bit is the lowest set bit of the intersection with its
appropriate-pool mask. -/
theorem activate_self_used (cfg : alloc_config) (st : alloc_state) (c : Nat)
    (hWF : CfgWF cfg) (hc : c < cfg.pool_count) :
    (small_mempool_activate cfg st c).used_pool c = c := by
  have hg : cfg.group_of c < cfg.group_count := hWF.group_lt c hc
  have hfl := hWF.first_le c hc
  have hll := hWF.le_last c hc
  have hgs := hWF.group_size _ hg
  rw [activate_used_eq, if_pos ⟨hfl, Nat.le_refl c⟩, hWF.appr c hc]
  have hidx : c - cfg.first (cfg.group_of c) < 32 := by omega
  set m' := st.active_pool_mask (cfg.group_of c) |||
    1 <<< (c - cfg.first (cfg.group_of c)) with hm'
  have hset : (m' &&& appropriate_mask (c - cfg.first (cfg.group_of c))).testBit
      (c - cfg.first (cfg.group_of c)) = true := by
    rw [Nat.testBit_and, appropriate_mask_testBit _ _ (by omega), hm',
        Nat.testBit_or, testBit_shiftLeft_one]
    simp [hidx]
  have hmin : ∀ k, k < c - cfg.first (cfg.group_of c) →
      ¬ (m' &&& appropriate_mask (c - cfg.first (cfg.group_of c))).testBit k := by
    intro k hk
    rw [Nat.testBit_and, appropriate_mask_testBit _ _ (by omega)]
    intro hcontra
    rcases Bool.and_eq_true_iff.mp hcontra with ⟨_, h2⟩
    rcases Bool.and_eq_true_iff.mp h2 with ⟨h3, _⟩
    have := of_decide_eq_true h3
    omega
  have := ffs_eq_of_least _ _ hidx hset hmin
  omega

/-!  A small concrete configuration used to exercise the theorems: two
pools of 8 and 16 bytes in one group, class table with granularity 8. -/

/-- Two size classes (8 and 16 bytes) sharing one group; the activation
threshold is far away (`waste_max = 100`). -/
def cfg0 : alloc_config where
  pool_count := 2
  group_count := 1
  objsize := fun i => 8 + 8 * i
  group_of := fun _ => 0
  first := fun _ => 0
  last := fun _ => 1
  waste_max := fun _ => 100
  appropriate_pool_mask := fun i => appropriate_mask i
  objsize_max := 16
  sc := ⟨8, 8, 16⟩

/-- Same layout with a low activation threshold (`waste_max = 8`), so a
single borrowed allocation activates the smaller pool. -/
def cfg1 : alloc_config where
  pool_count := 2
  group_count := 1
  objsize := fun i => 8 + 8 * i
  group_of := fun _ => 0
  first := fun _ => 0
  last := fun _ => 1
  waste_max := fun _ => 8
  appropriate_pool_mask := fun i => appropriate_mask i
  objsize_max := 16
  sc := ⟨8, 8, 16⟩

theorem cfg0_wf : CfgWF cfg0 :=
  ⟨by decide, by decide, by decide, by decide, by decide, by decide,
   by decide, by decide, by decide, by decide, by decide, by decide⟩

theorem cfg1_wf : CfgWF cfg1 :=
  ⟨by decide, by decide, by decide, by decide, by decide, by decide,
   by decide, by decide, by decide, by decide, by decide, by decide⟩

/-- Reachable demonstration state: one 5-byte allocation served by the
donor pool (waste 8, object live). -/
def st_borrow : alloc_state := smalloc cfg0 (init_state cfg0) 5 true

/-- Demonstration state in `SMALL_DELAYED_FREE` mode. -/
def st_dmode : alloc_state := small_alloc_setopt st_borrow true

/-- Demonstration state with the small object parked on its pool's
delayed LIFO. -/
def st_parked : alloc_state := smfree_delayed cfg0 st_dmode ⟨5, 1⟩

/-- Demonstration state with, in addition, a large (20-byte) object on
`delayed_large`. -/
def st_parked_large : alloc_state := smfree_delayed cfg0 st_parked ⟨20, 0⟩

/-- Demonstration state in `SMALL_COLLECT_GARBAGE` mode with nonempty
delayed lists. -/
def st_gc : alloc_state := small_alloc_setopt st_parked_large false

theorem st_gc_reachable : Reachable cfg0 st_gc :=
  Reachable.step (a := Action.setopt false)
    (Reachable.step (a := Action.freeDelayed ⟨20, 0⟩)
      (Reachable.step (a := Action.freeDelayed ⟨5, 1⟩)
        (Reachable.step (a := Action.setopt true)
          (Reachable.step (a := Action.alloc 5 true)
            Reachable.init trivial)
          trivial)
        (fun _ => by decide))
      (fun h => absurd h (by decide)))
    trivial

/-!  Claim theorems.  -/

/-- C4: for every class index `i` of the table,
`class_by_size (size_by_class i) = i`, and for every size `s` between
`min_alloc` and any class size, the class returned by `class_by_size` can
hold the requested size: `size_by_class (class_by_size s) ≥ s`.  (The
size-class code itself is not among the sources, so `size_by_class` and
`class_by_size` are modelled from the spec; the hypotheses are the
constructor's preconditions: positive granularity and `min_alloc`.) -/
theorem claim_C4 (sc : small_class) (hg : 1 ≤ sc.granularity)
    (hm : 1 ≤ sc.min_alloc) :
    (∀ i, class_by_size sc (size_by_class sc i) = i) ∧
    (∀ s i, sc.min_alloc ≤ s → s ≤ size_by_class sc i →
      s ≤ size_by_class sc (class_by_size sc s)) :=
  ⟨fun i => class_by_size_size_by_class sc hg hm i,
   fun s _ _ _ => (class_by_size_spec sc hg hm s).1⟩

theorem claim_C4_witness :
    class_by_size ⟨2, 12, 16⟩ (size_by_class ⟨2, 12, 16⟩ 20) = 20 ∧
    (12 : Nat) ≤ 51 ∧ (51 : Nat) ≤ size_by_class ⟨2, 12, 16⟩ 20 ∧
    51 ≤ size_by_class ⟨2, 12, 16⟩ (class_by_size ⟨2, 12, 16⟩ 51) := by
  have h := claim_C4 ⟨2, 12, 16⟩ (by decide) (by decide)
  exact ⟨h.1 20, by decide, by decide,
    h.2 51 20 (by decide) (by decide)⟩

/-- C1: after `small_mempool_activate p`, every peer `q` of `p`'s group
with index at most `p` has `used_pool` equal to the lowest-indexed pool of
the group whose bit is set in the (updated) `active_pool_mask` and whose
index is at least `q` — hence `used_pool`'s objsize is minimal among
active peers with objsize at least `q`'s — while every pool with index
greater than `p` keeps its `used_pool` unchanged.  Hypotheses: a
well-formed configuration, `p` a real pool, and the group's mask within
the group width (as the invariant guarantees at every activation site). -/
theorem claim_C1 (cfg : alloc_config) (st : alloc_state) (p : Nat)
    (hWF : CfgWF cfg) (hp : p < cfg.pool_count)
    (hmask : st.active_pool_mask (cfg.group_of p) <
      2 ^ (cfg.last (cfg.group_of p) - cfg.first (cfg.group_of p) + 1)) :
    (∀ q, cfg.first (cfg.group_of p) ≤ q → q ≤ p →
      (q ≤ (small_mempool_activate cfg st p).used_pool q ∧
       (small_mempool_activate cfg st p).used_pool q ≤
         cfg.last (cfg.group_of p) ∧
       ((small_mempool_activate cfg st p).active_pool_mask (cfg.group_of p)).testBit
         ((small_mempool_activate cfg st p).used_pool q -
           cfg.first (cfg.group_of p)) ∧
       (∀ j, q ≤ j → j ≤ cfg.last (cfg.group_of p) →
         ((small_mempool_activate cfg st p).active_pool_mask
             (cfg.group_of p)).testBit (j - cfg.first (cfg.group_of p)) →
         (small_mempool_activate cfg st p).used_pool q ≤ j) ∧
       cfg.objsize q ≤
         cfg.objsize ((small_mempool_activate cfg st p).used_pool q) ∧
       (∀ j, cfg.first (cfg.group_of p) ≤ j → j ≤ cfg.last (cfg.group_of p) →
         ((small_mempool_activate cfg st p).active_pool_mask
             (cfg.group_of p)).testBit (j - cfg.first (cfg.group_of p)) →
         cfg.objsize q ≤ cfg.objsize j →
         cfg.objsize ((small_mempool_activate cfg st p).used_pool q) ≤
           cfg.objsize j))) ∧
    (∀ r, p < r → (small_mempool_activate cfg st p).used_pool r =
      st.used_pool r) := by
  have hg : cfg.group_of p < cfg.group_count := hWF.group_lt p hp
  have hfl := hWF.first_le p hp
  have hll := hWF.le_last p hp
  have hgs := hWF.group_size _ hg
  have hlastlt := hWF.last_lt _ hg
  have hmask' : (small_mempool_activate cfg st p).active_pool_mask
      (cfg.group_of p) = st.active_pool_mask (cfg.group_of p) |||
      1 <<< (p - cfg.first (cfg.group_of p)) := by
    rw [activate_mask_eq, if_pos rfl]
  constructor
  · intro q hq1 hq2
    have hq : q < cfg.pool_count := by omega
    have hgq : cfg.group_of q = cfg.group_of p :=
      hWF.contiguous _ hg q (by omega) hq1
    have hused : (small_mempool_activate cfg st p).used_pool q =
        cfg.first (cfg.group_of p) +
          (ffs ((st.active_pool_mask (cfg.group_of p) |||
              1 <<< (p - cfg.first (cfg.group_of p))) &&&
            appropriate_mask (q - cfg.first (cfg.group_of p))) - 1) := by
      rw [activate_used_eq, if_pos ⟨hq1, hq2⟩, hWF.appr q hq, hgq]
    have hm'lt : st.active_pool_mask (cfg.group_of p) |||
        1 <<< (p - cfg.first (cfg.group_of p)) <
        2 ^ (cfg.last (cfg.group_of p) - cfg.first (cfg.group_of p) + 1) :=
      Nat.or_lt_two_pow hmask (shiftLeft_one_lt _ _ (by omega))
    have hbit : (st.active_pool_mask (cfg.group_of p) |||
        1 <<< (p - cfg.first (cfg.group_of p))).testBit
          (p - cfg.first (cfg.group_of p)) = true := by
      rw [Nat.testBit_or, testBit_shiftLeft_one]
      simp
    obtain ⟨h1, h2, h3, h4⟩ :=
      tight_fit_spec (st.active_pool_mask (cfg.group_of p) |||
          1 <<< (p - cfg.first (cfg.group_of p)))
        (cfg.first (cfg.group_of p)) (cfg.last (cfg.group_of p)) q
        hq1 (by omega) hgs hm'lt
        ⟨p - cfg.first (cfg.group_of p), by omega, by omega, hbit⟩
    rw [← hused] at h1 h2 h3 h4
    rw [hmask']
    have hulanc : (small_mempool_activate cfg st p).used_pool q <
        cfg.pool_count := by omega
    have hobj : cfg.objsize q ≤
        cfg.objsize ((small_mempool_activate cfg st p).used_pool q) := by
      rcases Nat.eq_or_lt_of_le h1 with h | h
      · exact Nat.le_of_eq (congrArg cfg.objsize h)
      · exact Nat.le_of_lt (hWF.objsize_mono _ hulanc q h)
    refine ⟨h1, h2, h3, h4, hobj, ?_⟩
    intro j hj1 hj2 hj3 hj4
    have hjlt : j < cfg.pool_count := by omega
    have hqj : q ≤ j := by
      by_contra hlt
      push_neg at hlt
      have := hWF.objsize_mono q hq j hlt
      omega
    have := h4 j hqj hj2 hj3
    rcases Nat.eq_or_lt_of_le this with h | h
    · exact Nat.le_of_eq (congrArg cfg.objsize h)
    · exact Nat.le_of_lt (hWF.objsize_mono j hjlt _ h)
  · intro r hr
    rw [activate_used_eq, if_neg]
    intro hand
    omega

theorem claim_C1_witness :
    0 ≤ (small_mempool_activate cfg0 (init_state cfg0) 0).used_pool 0 ∧
    (small_mempool_activate cfg0 (init_state cfg0) 0).used_pool 0 ≤ 1 ∧
    ((small_mempool_activate cfg0 (init_state cfg0) 0).active_pool_mask 0).testBit
      ((small_mempool_activate cfg0 (init_state cfg0) 0).used_pool 0 - 0) ∧
    (small_mempool_activate cfg0 (init_state cfg0) 0).used_pool 1 =
      (init_state cfg0).used_pool 1 := by
  have h := claim_C1 cfg0 (init_state cfg0) 0 cfg0_wf (by decide) (by decide)
  obtain ⟨h1, h2, h3, _, _, _⟩ := h.1 0 (by decide) (by decide)
  exact ⟨h1, h2, h3, h.2 1 (by decide)⟩

/-- C2 (amended): for every `smalloc(size)` that routes to a size class
(`small_mempool_search` returns class `c`) and whose underlying
`mempool_alloc` succeeds, if the class pool currently (after this call's
garbage-collection step, which is what the routing sees) borrows from a
donor then the call adds `donor.objsize - p.objsize` to `p.waste`, and if
the new waste reaches `waste_max` the call activates `p` (its bit becomes
set and it starts serving itself), otherwise masks and routing stay
untouched; when `p.used_pool = p` the waste counters are unchanged.  The
original claim omitted the success condition: on out-of-memory the code
skips the waste update (see the counterexample). -/
theorem claim_C2 (cfg : alloc_config) (st : alloc_state) (size : Nat)
    (ok : Bool) (c : Nat) (hWF : CfgWF cfg)
    (hs : small_mempool_search cfg size = some c) (hok : ok = true) :
    ((small_collect_garbage cfg st).used_pool c ≠ c →
      ((smalloc cfg st size ok).waste c =
        (small_collect_garbage cfg st).waste c +
          (cfg.objsize ((small_collect_garbage cfg st).used_pool c) -
            cfg.objsize c) ∧
      (cfg.waste_max (cfg.group_of c) ≤
          (small_collect_garbage cfg st).waste c +
            (cfg.objsize ((small_collect_garbage cfg st).used_pool c) -
              cfg.objsize c) →
        ((smalloc cfg st size ok).active_pool_mask (cfg.group_of c)).testBit
          (c - cfg.first (cfg.group_of c)) ∧
        (smalloc cfg st size ok).used_pool c = c) ∧
      ((small_collect_garbage cfg st).waste c +
          (cfg.objsize ((small_collect_garbage cfg st).used_pool c) -
            cfg.objsize c) < cfg.waste_max (cfg.group_of c) →
        (smalloc cfg st size ok).active_pool_mask =
          (small_collect_garbage cfg st).active_pool_mask ∧
        (smalloc cfg st size ok).used_pool =
          (small_collect_garbage cfg st).used_pool))) ∧
    ((small_collect_garbage cfg st).used_pool c = c →
      (smalloc cfg st size ok).waste =
        (small_collect_garbage cfg st).waste) := by
  subst hok
  obtain ⟨hsize, hc⟩ := search_some cfg size c hs
  have hclt : c < cfg.pool_count := by
    rw [hc]
    exact hWF.class_lt size hsize
  unfold smalloc smalloc_core
  rw [hs]
  dsimp only
  constructor
  · intro hne
    rw [if_pos rfl, if_pos hne]
    refine ⟨?_, ?_, ?_⟩
    · by_cases hw : cfg.waste_max (cfg.group_of c) ≤
          (small_collect_garbage cfg st).waste c +
            (cfg.objsize ((small_collect_garbage cfg st).used_pool c) -
              cfg.objsize c)
      · rw [if_pos hw, (activate_frame cfg _ c).1]
        dsimp only
        rw [Function.update_same]
      · rw [if_neg hw]
        dsimp only
        rw [Function.update_same]
    · intro hw
      rw [if_pos hw]
      constructor
      · rw [activate_mask_eq, if_pos rfl]
        dsimp only
        rw [Nat.testBit_or, testBit_shiftLeft_one]
        simp
      · exact activate_self_used cfg _ c hWF hclt
    · intro hw
      rw [if_neg (by omega : ¬ cfg.waste_max (cfg.group_of c) ≤
          (small_collect_garbage cfg st).waste c +
            (cfg.objsize ((small_collect_garbage cfg st).used_pool c) -
              cfg.objsize c))]
      exact ⟨rfl, rfl⟩
  · intro heq
    rw [if_pos rfl, if_neg (by simpa using heq)]

/-- C2 counterexample: in the reachable created state of `cfg0` a 5-byte
request routes to class 0, which borrows from pool 1 (donor objsize
difference 8), yet when `mempool_alloc` fails (out of memory) `smalloc`
leaves `waste` untouched — the claim as stated demands an unconditional
increment of 8. -/
theorem claim_C2_counterexample :
    (init_state cfg0).free_mode = SMALL_FREE ∧
    small_mempool_search cfg0 5 = some 0 ∧
    (init_state cfg0).used_pool 0 ≠ 0 ∧
    cfg0.objsize ((init_state cfg0).used_pool 0) - cfg0.objsize 0 = 8 ∧
    (smalloc cfg0 (init_state cfg0) 5 false).waste 0 =
      (init_state cfg0).waste 0 ∧
    (init_state cfg0).waste 0 = 0 := by
  refine ⟨by decide, by decide, by decide, by decide, by decide, by decide⟩

theorem claim_C2_witness :
    (small_collect_garbage cfg1 (init_state cfg1)).used_pool 0 ≠ 0 ∧
    (smalloc cfg1 (init_state cfg1) 5 true).waste 0 =
      (small_collect_garbage cfg1 (init_state cfg1)).waste 0 +
        (cfg1.objsize ((small_collect_garbage cfg1 (init_state cfg1)).used_pool 0) -
          cfg1.objsize 0) ∧
    ((smalloc cfg1 (init_state cfg1) 5 true).active_pool_mask 0).testBit 0 ∧
    (smalloc cfg1 (init_state cfg1) 5 true).used_pool 0 = 0 := by
  have h := claim_C2 cfg1 (init_state cfg1) 5 true 0 cfg1_wf (by decide) rfl
  have hne : (small_collect_garbage cfg1 (init_state cfg1)).used_pool 0 ≠ 0 := by
    decide
  have hth : cfg1.waste_max (cfg1.group_of 0) ≤
      (small_collect_garbage cfg1 (init_state cfg1)).waste 0 +
        (cfg1.objsize ((small_collect_garbage cfg1 (init_state cfg1)).used_pool 0) -
          cfg1.objsize 0) := by decide
  obtain ⟨hw, hact, _⟩ := h.1 hne
  obtain ⟨hbit, hused⟩ := hact hth
  exact ⟨hne, hw, hbit, hused⟩

/-- C3: in every reachable state, for every live object `o` that was
allocated by `smalloc` with `o.size ≤ objsize_max` and not yet freed, the
pool `slab_from_ptr` recovers has objsize at least the nominal class
pool's, that difference is at most the class's waste counter (the
assertion in `smfree` holds, so the unsigned subtraction cannot
underflow), and `smfree` decrements the counter exactly — waste stays a
true nonnegative count. -/
theorem claim_C3 (cfg : alloc_config) (st : alloc_state) (o : Obj)
    (hWF : CfgWF cfg) (hR : Reachable cfg st) (ho : o ∈ st.live)
    (hsize : o.size ≤ cfg.objsize_max) :
    cfg.objsize (class_by_size cfg.sc o.size) ≤ cfg.objsize o.actual ∧
    cfg.objsize o.actual - cfg.objsize (class_by_size cfg.sc o.size) ≤
      st.waste (class_by_size cfg.sc o.size) ∧
    (smfree cfg st o).waste (class_by_size cfg.sc o.size) +
      (cfg.objsize o.actual - cfg.objsize (class_by_size cfg.sc o.size)) =
      st.waste (class_by_size cfg.sc o.size) := by
  have hInv := reachable_inv cfg st hWF hR
  obtain ⟨_, _, hobj⟩ := hInv.live_ok o ho
  have hclt : class_by_size cfg.sc o.size < cfg.pool_count :=
    hWF.class_lt o.size hsize
  have hweq := hInv.waste_eq _ hclt
  have hle : diff_of cfg o ≤ st.waste (class_by_size cfg.sc o.size) := by
    rw [hweq]
    have := mem_sum_map_filter_le (diff_of cfg)
      (fun o' => class_by_size cfg.sc o'.size == class_by_size cfg.sc o.size)
      st.live o ho (by simp)
    unfold wasteSum
    omega
  have hdiffo : diff_of cfg o =
      cfg.objsize o.actual - cfg.objsize (class_by_size cfg.sc o.size) := rfl
  refine ⟨hobj, by omega, ?_⟩
  unfold smfree
  have hs : small_mempool_search cfg o.size =
      some (class_by_size cfg.sc o.size) := by
    unfold small_mempool_search
    rw [if_neg (by omega)]
  rw [hs]
  dsimp only
  rw [Function.update_same]
  omega

theorem claim_C3_witness :
    cfg0.objsize (class_by_size cfg0.sc 5) ≤ cfg0.objsize 1 ∧
    cfg0.objsize 1 - cfg0.objsize (class_by_size cfg0.sc 5) ≤
      st_borrow.waste (class_by_size cfg0.sc 5) ∧
    (smfree cfg0 st_borrow ⟨5, 1⟩).waste (class_by_size cfg0.sc 5) +
      (cfg0.objsize 1 - cfg0.objsize (class_by_size cfg0.sc 5)) =
      st_borrow.waste (class_by_size cfg0.sc 5) := by
  have h := claim_C3 cfg0 st_borrow ⟨5, 1⟩ cfg0_wf
    (Reachable.step (a := Action.alloc 5 true) Reachable.init trivial)
    (by decide) (by decide)
  exact h

/-- C5: when `free_mode = SMALL_DELAYED_FREE`, `smfree_delayed` releases
nothing — a large object is pushed onto `delayed_large` (everything else
untouched), a small object is pushed onto its class pool's `delayed` LIFO
and, exactly when that LIFO was empty, the pool itself is enqueued on the
allocator's delayed list, with waste counters, masks and routing
untouched; in every other mode `smfree_delayed` is exactly `smfree`. -/
theorem claim_C5 (cfg : alloc_config) (st : alloc_state) (o : Obj) :
    (st.free_mode = SMALL_DELAYED_FREE →
      (cfg.objsize_max < o.size →
        smfree_delayed cfg st o =
          { st with delayed_large := o :: st.delayed_large }) ∧
      (o.size ≤ cfg.objsize_max →
        ((smfree_delayed cfg st o).delayed (class_by_size cfg.sc o.size) =
          o :: st.delayed (class_by_size cfg.sc o.size) ∧
        (st.delayed (class_by_size cfg.sc o.size) = [] →
          (smfree_delayed cfg st o).pool_delayed =
            class_by_size cfg.sc o.size :: st.pool_delayed) ∧
        (st.delayed (class_by_size cfg.sc o.size) ≠ [] →
          (smfree_delayed cfg st o).pool_delayed = st.pool_delayed) ∧
        (∀ p, p ≠ class_by_size cfg.sc o.size →
          (smfree_delayed cfg st o).delayed p = st.delayed p) ∧
        (smfree_delayed cfg st o).waste = st.waste ∧
        (smfree_delayed cfg st o).active_pool_mask = st.active_pool_mask ∧
        (smfree_delayed cfg st o).used_pool = st.used_pool ∧
        (smfree_delayed cfg st o).delayed_large = st.delayed_large ∧
        (smfree_delayed cfg st o).free_mode = st.free_mode))) ∧
    (st.free_mode ≠ SMALL_DELAYED_FREE →
      smfree_delayed cfg st o = smfree cfg st o) := by
  constructor
  · intro hm
    constructor
    · intro hlarge
      unfold smfree_delayed
      rw [if_pos hm]
      have hs : small_mempool_search cfg o.size = none := by
        unfold small_mempool_search
        rw [if_pos hlarge]
      rw [hs]
    · intro hsmall
      have hs : small_mempool_search cfg o.size =
          some (class_by_size cfg.sc o.size) := by
        unfold small_mempool_search
        rw [if_neg (by omega)]
      unfold smfree_delayed
      rw [if_pos hm, hs]
      dsimp only
      by_cases hdel : st.delayed (class_by_size cfg.sc o.size) = []
      · rw [if_pos hdel]
        refine ⟨?_, fun _ => rfl, fun hne => absurd hdel hne, ?_, rfl, rfl,
          rfl, rfl, rfl⟩
        · simp only [Function.update_same]
        · intro p hp
          simp only [Function.update_noteq hp]
      · rw [if_neg hdel]
        refine ⟨?_, fun heq => absurd heq hdel, fun _ => rfl, ?_, rfl, rfl,
          rfl, rfl, rfl⟩
        · simp only [Function.update_same]
        · intro p hp
          simp only [Function.update_noteq hp]
  · intro hm
    unfold smfree_delayed
    rw [if_neg hm]

theorem claim_C5_witness :
    (smfree_delayed cfg0 st_dmode ⟨5, 1⟩).delayed 0 = [⟨5, 1⟩] ∧
    (smfree_delayed cfg0 st_dmode ⟨5, 1⟩).pool_delayed = [0] ∧
    (smfree_delayed cfg0 st_dmode ⟨5, 1⟩).waste = st_dmode.waste ∧
    smfree_delayed cfg0 st_parked ⟨20, 0⟩ =
      { st_parked with delayed_large := ⟨20, 0⟩ :: st_parked.delayed_large } ∧
    smfree_delayed cfg0 st_gc ⟨20, 0⟩ = smfree cfg0 st_gc ⟨20, 0⟩ := by
  have h1 := claim_C5 cfg0 st_dmode ⟨5, 1⟩
  have h2 := claim_C5 cfg0 st_parked ⟨20, 0⟩
  have h3 := claim_C5 cfg0 st_gc ⟨20, 0⟩
  obtain ⟨hd, hpd, _, _, hw, _⟩ := (h1.1 (by decide)).2 (by decide)
  refine ⟨?_, ?_, hw, (h2.1 (by decide)).1 (by decide), h3.2 (by decide)⟩
  · have : st_dmode.delayed 0 = [] := by decide
    rw [show (0 : Nat) = class_by_size cfg0.sc 5 from by decide] at this ⊢
    rw [hd, this]
  · have hnil : st_dmode.delayed (class_by_size cfg0.sc 5) = [] := by decide
    have := hpd hnil
    rw [this]
    decide

/-- C6: the free-mode state machine — `setopt(DELAYED_FREE, v)` moves to
`SMALL_DELAYED_FREE` when `v` and to `SMALL_COLLECT_GARBAGE` otherwise;
`smfree` and `smfree_delayed` never change the mode; and `smalloc` changes
it exactly when the mode is `SMALL_COLLECT_GARBAGE` and both the
`delayed_large` list and the allocator's delayed list are empty, in which
case it becomes `SMALL_FREE`. -/
theorem claim_C6 (cfg : alloc_config) :
    (∀ st val, (small_alloc_setopt st val).free_mode =
      if val then SMALL_DELAYED_FREE else SMALL_COLLECT_GARBAGE) ∧
    (∀ st o, (smfree cfg st o).free_mode = st.free_mode) ∧
    (∀ st o, (smfree_delayed cfg st o).free_mode = st.free_mode) ∧
    (∀ st size ok, (smalloc cfg st size ok).free_mode =
      if st.free_mode = SMALL_COLLECT_GARBAGE ∧ st.delayed_large = [] ∧
          st.pool_delayed = [] then SMALL_FREE
      else st.free_mode) :=
  ⟨fun _ _ => rfl, smfree_mode cfg, smfree_delayed_mode cfg,
   smalloc_mode cfg⟩

/-- C7: a `smalloc` call in `SMALL_COLLECT_GARBAGE` mode drains at most
`BATCH = 100` delayed items in total, and large delayed slabs drain
strictly before regular delayed objects: when `delayed_large` is nonempty
at the start of the call, only large slabs are released (the list loses
exactly its first `100` entries, or empties) and no pool's delayed LIFO
changes. -/
theorem claim_C7 (cfg : alloc_config) (st : alloc_state) (size : Nat)
    (ok : Bool) (hmode : st.free_mode = SMALL_COLLECT_GARBAGE) :
    totalDelayed cfg st ≤ totalDelayed cfg (smalloc cfg st size ok) + 100 ∧
    (st.delayed_large ≠ [] →
      (smalloc cfg st size ok).delayed_large = st.delayed_large.drop 100 ∧
      ∀ p, (smalloc cfg st size ok).delayed p = st.delayed p) := by
  constructor
  · have h1 := collect_garbage_total cfg st
    have h2 := smalloc_core_total cfg (small_collect_garbage cfg st) size ok
    unfold smalloc
    omega
  · intro hlarge
    have hcol : small_collect_garbage cfg st =
        { st with delayed_large := collect_large 100 st.delayed_large } := by
      unfold small_collect_garbage
      rw [if_neg (fun h => h hmode), if_pos hlarge]
    constructor
    · show (smalloc_core cfg (small_collect_garbage cfg st) size ok).delayed_large = _
      rw [(smalloc_core_frame cfg _ size ok).2.2.1, hcol]
      exact collect_large_eq_drop 100 st.delayed_large
    · intro p
      show (smalloc_core cfg (small_collect_garbage cfg st) size ok).delayed p = _
      rw [(smalloc_core_frame cfg _ size ok).1, hcol]

theorem claim_C7_witness :
    st_gc.free_mode = SMALL_COLLECT_GARBAGE ∧
    totalDelayed cfg0 st_gc ≤ totalDelayed cfg0 (smalloc cfg0 st_gc 7 true) + 100 ∧
    (smalloc cfg0 st_gc 7 true).delayed_large = st_gc.delayed_large.drop 100 ∧
    (smalloc cfg0 st_gc 7 true).delayed 0 = st_gc.delayed 0 := by
  have h := claim_C7 cfg0 st_gc 7 true (by decide)
  obtain ⟨hdrop, hdel⟩ := h.2 (by decide)
  exact ⟨by decide, h.1, hdrop, hdel 0⟩

theorem activate_mask_mono (cfg : alloc_config) (st : alloc_state)
    (p g b : Nat) (h : (st.active_pool_mask g).testBit b) :
    ((small_mempool_activate cfg st p).active_pool_mask g).testBit b := by
  rw [activate_mask_eq]
  by_cases hg : g = cfg.group_of p
  · rw [if_pos hg, Nat.testBit_or]
    rw [hg] at h
    rw [h]
    simp
  · rw [if_neg hg]
    exact h

theorem smalloc_core_mask_mono (cfg : alloc_config) (st : alloc_state)
    (size : Nat) (ok : Bool) (g b : Nat)
    (h : (st.active_pool_mask g).testBit b) :
    ((smalloc_core cfg st size ok).active_pool_mask g).testBit b := by
  unfold smalloc_core
  cases hs : small_mempool_search cfg size with
  | none => exact h
  | some c =>
    cases ok with
    | false => exact h
    | true =>
      dsimp only
      by_cases hne : st.used_pool c ≠ c
      · rw [if_pos hne]
        by_cases hw : cfg.waste_max (cfg.group_of c) ≤
            st.waste c + (cfg.objsize (st.used_pool c) - cfg.objsize c)
        · rw [if_pos hw]
          exact activate_mask_mono cfg _ c g b h
        · rw [if_neg hw]
          exact h
      · rw [if_neg hne]
        exact h

theorem smfree_mask_eq (cfg : alloc_config) (st : alloc_state) (o : Obj) :
    (smfree cfg st o).active_pool_mask = st.active_pool_mask := by
  unfold smfree
  cases small_mempool_search cfg o.size with
  | none => rfl
  | some c => rfl

theorem smfree_delayed_mask_eq (cfg : alloc_config) (st : alloc_state)
    (o : Obj) :
    (smfree_delayed cfg st o).active_pool_mask = st.active_pool_mask := by
  unfold smfree_delayed
  by_cases hm : st.free_mode = SMALL_DELAYED_FREE
  · rw [if_pos hm]
    cases small_mempool_search cfg o.size with
    | none => rfl
    | some c =>
      dsimp only
      by_cases hdel : st.delayed c = []
      · rw [if_pos hdel]
      · rw [if_neg hdel]
  · rw [if_neg hm]
    exact smfree_mask_eq cfg st o

/-- C8: within one lifetime, bits of each group's `active_pool_mask` are
only ever set, never cleared, by any operation, and the activation
assertion always holds — in any reachable state a pool that still borrows
(`used_pool ≠ self`) has its bit clear, so each pool is activated at most
once (the only activation call site fires exactly on borrowing pools). -/
theorem claim_C8 (cfg : alloc_config) (st : alloc_state) (a : Action)
    (hWF : CfgWF cfg) (hR : Reachable cfg st)
    (hV : ValidAction cfg st a) :
    (∀ g b, (st.active_pool_mask g).testBit b →
      ((stepFn cfg st a).active_pool_mask g).testBit b) ∧
    (∀ p, p < cfg.pool_count → st.used_pool p ≠ p →
      ¬ (st.active_pool_mask (cfg.group_of p)).testBit
        (p - cfg.first (cfg.group_of p))) := by
  have hInv := reachable_inv cfg st hWF hR
  constructor
  · intro g b h
    cases a with
    | alloc size ok =>
      show ((smalloc cfg st size ok).active_pool_mask g).testBit b
      unfold smalloc
      apply smalloc_core_mask_mono
      rw [(collect_garbage_mask_eq cfg st).1]
      exact h
    | free o =>
      show ((smfree cfg st o).active_pool_mask g).testBit b
      rw [smfree_mask_eq]
      exact h
    | freeDelayed o =>
      show ((smfree_delayed cfg st o).active_pool_mask g).testBit b
      rw [smfree_delayed_mask_eq]
      exact h
    | setopt val => exact h
  · intro p hp hne hbit
    exact hne (self_bit_used_self cfg st hWF hInv p hp hbit)

theorem claim_C8_witness :
    ((stepFn cfg0 (init_state cfg0) (Action.alloc 5 true)).active_pool_mask 0).testBit 1 ∧
    ¬ ((init_state cfg0).active_pool_mask 0).testBit 0 := by
  have h := claim_C8 cfg0 (init_state cfg0) (Action.alloc 5 true)
    cfg0_wf Reachable.init trivial
  exact ⟨h.1 0 1 (by decide), h.2 0 (by decide) (by decide)⟩

/-- C9 (amended): `smfree_delayed` never performs a garbage-collection
step — in every mode other than `SMALL_DELAYED_FREE` it behaves exactly
as `smfree`, and in no mode does it shrink any delayed list; only
`smalloc` pumps the delayed-list drain (it invokes
`small_collect_garbage` first).  The original claim said both entry
points pump GC; the code calls `small_collect_garbage` from `smalloc`
only (see the counterexample). -/
theorem claim_C9 (cfg : alloc_config) (st : alloc_state) (o : Obj) :
    (st.free_mode ≠ SMALL_DELAYED_FREE →
      smfree_delayed cfg st o = smfree cfg st o) ∧
    st.delayed_large.length ≤ (smfree_delayed cfg st o).delayed_large.length ∧
    (∀ p, (st.delayed p).length ≤
      ((smfree_delayed cfg st o).delayed p).length) := by
  refine ⟨?_, ?_, ?_⟩
  · intro hm
    unfold smfree_delayed
    rw [if_neg hm]
  · unfold smfree_delayed
    by_cases hm : st.free_mode = SMALL_DELAYED_FREE
    · rw [if_pos hm]
      cases small_mempool_search cfg o.size with
      | none => simp
      | some c =>
        dsimp only
        by_cases hdel : st.delayed c = []
        · rw [if_pos hdel]
        · rw [if_neg hdel]
    · rw [if_neg hm]
      unfold smfree
      cases small_mempool_search cfg o.size with
      | none => exact Nat.le_refl _
      | some c => exact Nat.le_refl _
  · intro p
    unfold smfree_delayed
    by_cases hm : st.free_mode = SMALL_DELAYED_FREE
    · rw [if_pos hm]
      cases small_mempool_search cfg o.size with
      | none => exact Nat.le_refl _
      | some c =>
        dsimp only
        by_cases hdel : st.delayed c = []
        · rw [if_pos hdel]
          by_cases hpc : p = c
          · subst hpc
            simp only [Function.update_same]
            simp
          · simp only [Function.update_noteq hpc]
            exact Nat.le_refl _
        · rw [if_neg hdel]
          by_cases hpc : p = c
          · subst hpc
            simp only [Function.update_same]
            simp
          · simp only [Function.update_noteq hpc]
            exact Nat.le_refl _
    · rw [if_neg hm]
      unfold smfree
      cases small_mempool_search cfg o.size with
      | none => exact Nat.le_refl _
      | some c => exact Nat.le_refl _

/-- C9 counterexample: in the reachable state `st_gc` the mode is
`SMALL_COLLECT_GARBAGE` and a large slab is pending on `delayed_large`;
`smfree_delayed` leaves the pending lists and the mode exactly as they
were (it performs no GC step), while `smalloc` from the same state drains
the pending large slab — refuting the claim that both entry points pump
the delayed-list drain. -/
theorem claim_C9_counterexample :
    st_gc.free_mode = SMALL_COLLECT_GARBAGE ∧
    st_gc.delayed_large = [⟨20, 0⟩] ∧
    (smfree_delayed cfg0 st_gc ⟨20, 0⟩).delayed_large = [⟨20, 0⟩] ∧
    (smfree_delayed cfg0 st_gc ⟨20, 0⟩).free_mode = SMALL_COLLECT_GARBAGE ∧
    (smfree_delayed cfg0 st_gc ⟨20, 0⟩).delayed 0 = st_gc.delayed 0 ∧
    (smalloc cfg0 st_gc 5 true).delayed_large = [] := by
  refine ⟨by decide, by decide, by decide, by decide, by decide, by decide⟩

theorem claim_C9_witness :
    smfree_delayed cfg0 st_gc ⟨20, 0⟩ = smfree cfg0 st_gc ⟨20, 0⟩ ∧
    st_gc.delayed_large.length ≤
      (smfree_delayed cfg0 st_gc ⟨20, 0⟩).delayed_large.length := by
  have h := claim_C9 cfg0 st_gc ⟨20, 0⟩
  exact ⟨h.1 (by decide), h.2.1⟩

/-- C10: in every reachable state, every pool's `used_pool` names a real
pool of the same group whose bit is set in the group's
`active_pool_mask`, with index and objsize at least the pool's own — so
every allocation routed through `used_pool` fits its requested class
(any size of that class is at most the serving pool's objsize). -/
theorem claim_C10 (cfg : alloc_config) (st : alloc_state)
    (hWF : CfgWF cfg) (hR : Reachable cfg st) :
    ∀ i, i < cfg.pool_count →
      st.used_pool i < cfg.pool_count ∧
      cfg.group_of (st.used_pool i) = cfg.group_of i ∧
      (st.active_pool_mask (cfg.group_of i)).testBit
        (st.used_pool i - cfg.first (cfg.group_of i)) ∧
      i ≤ st.used_pool i ∧
      cfg.objsize i ≤ cfg.objsize (st.used_pool i) ∧
      (∀ size, size ≤ cfg.objsize_max → class_by_size cfg.sc size = i →
        size ≤ cfg.objsize (st.used_pool i)) := by
  have hInv := reachable_inv cfg st hWF hR
  intro i hi
  obtain ⟨h1, h2, h3, h4, h5, h6, h7⟩ := used_pool_spec cfg st hWF hInv i hi
  refine ⟨h3, h4, h5, h1, h6, ?_⟩
  intro size hsz hcls
  have := hWF.class_fits size hsz
  rw [hcls] at this
  omega

theorem claim_C10_witness :
    st_borrow.used_pool 0 < cfg0.pool_count ∧
    cfg0.group_of (st_borrow.used_pool 0) = cfg0.group_of 0 ∧
    (st_borrow.active_pool_mask 0).testBit (st_borrow.used_pool 0 - 0) ∧
    0 ≤ st_borrow.used_pool 0 ∧
    cfg0.objsize 0 ≤ cfg0.objsize (st_borrow.used_pool 0) ∧
    5 ≤ cfg0.objsize (st_borrow.used_pool 0) := by
  have h := claim_C10 cfg0 st_borrow cfg0_wf
    (Reachable.step (a := Action.alloc 5 true) Reachable.init trivial)
  obtain ⟨h1, h2, h3, h4, h5, h6⟩ := h 0 (by decide)
  exact ⟨h1, h2, h3, h4, h5, h6 5 (by decide) (by decide)⟩


end SmallAlloc
